import Mathlib

/-!
Verification of the core of the `gha-workflow-benchmark` mining pipeline.

The development shallowly embeds the data model and the pure logic of the
Python sources:

* `poutine_docker_optimized.py` / `poutine_docker.py` — analyzer-output
  parsing, the before/after comparator and its `ComparisonResult` record;
* `poutine_docker_batch.py` — the resumable batch orchestrator
  (progress reconciliation, suffix slicing, per-hit processing loop);
* `scan_security_index_and_diffs.py` — relative-path normalization,
  text decoding, keyword CSV encoding, and the scan/report pipeline.

External effects (subprocess invocation, the filesystem, wall-clock
timestamps) are represented by explicit parameters or by the values they
produce; everything that the Python code computes from those values is
embedded as executable Lean functions.
-/

set_option linter.unusedVariables false
set_option maxRecDepth 8000

/-- Shallow embedding of a JSON value as produced by Python's `json.loads`.
Numeric literals keep their raw source text (the pipeline never does
arithmetic on analyzer findings, it only counts, compares and stringifies
them). -/
inductive Json where
  | null : Json
  | bool (b : Bool) : Json
  | num (raw : String) : Json
  | str (s : String) : Json
  | arr (elems : List Json) : Json
  | obj (members : List (String × Json)) : Json

/-- Elements of a findings value.  In every result built by the parsing
policy the `findings` field is a JSON array; `jsonElems` extracts its
elements (and is vacuous on the unreachable non-array shapes). -/
def jsonElems : Json → List Json
  | Json.arr xs => xs
  | _ => []

/-- Embedding of the `CommitInfo` dataclass of `poutine_docker_optimized.py`.
`prev_sha` and `diff_relpath` are `Option String` because the scanner emits
`null` for them when a commit has no predecessor (the dataclass annotation
says `str`, but Python does not enforce it and the JSONL loader passes
`None` through). -/
structure CommitInfo where
  org : String
  repo : String
  workflow_path : String
  commit_sha : String
  commit_date : String
  matched_keywords : List String
  message : String
  snapshot_relpath : String
  prev_sha : Option String
  diff_relpath : Option String
deriving DecidableEq

/-- Embedding of the `PoutineResult` dataclass (one analyzer invocation).
`findings` is the JSON value stored in the field (an array in every result
the parsing policy builds). -/
structure PoutineResult where
  success : Bool
  error_message : Option String
  findings_count : Nat
  findings : Json
  raw_output : String

/-- Embedding of the `ComparisonResult` dataclass.  `reduction_count` is an
`Int` because Python computes `before_count - after_count` with unbounded
integers and the difference may be negative. -/
structure ComparisonResult where
  commit_info : CommitInfo
  before_result : PoutineResult
  after_result : PoutineResult
  weaknesses_reduced : Bool
  before_count : Nat
  after_count : Nat
  reduction_count : Int
  fixed_issues : List String

/-- Embedding of `PoutineDockerOptimized.compare_before_after` (identical
logic in `PoutineDockerAnalyzer.compare_before_after`).

* `run` stands for `self.run_poutine_on_workflow`, i.e. the analyzer
  invocation on one resolved snapshot path;
* `pyStr` stands for Python's `str(·)` on one finding (used only to build
  the set-differenced `fixed_issues`; no claim depends on its format);
* the `data_root / relpath` join is embedded as string concatenation with
  `/`.

When `commit.prev_sha` is `None`, the very first statement
`commit.snapshot_relpath.replace(commit.commit_sha, commit.prev_sha)`
raises `TypeError: replace() argument 2 must be str`, so the embedding
returns `Except.error` before any analyzer call.  `fixed_issues` is the
set difference `set(str(f) for f in before) - set(...)` materialized as a
duplicate-free list; Python's set iteration order is unspecified, so the
embedding fixes first-occurrence order. -/
def compareBeforeAfter (run : String → PoutineResult) (pyStr : Json → String)
    (dataRoot : String) (commit : CommitInfo) : Except String ComparisonResult :=
  match commit.prev_sha with
  | none => Except.error "TypeError: replace() argument 2 must be str"
  | some prev =>
    let beforeFile := dataRoot ++ "/" ++ commit.snapshot_relpath.replace commit.commit_sha prev
    let afterFile := dataRoot ++ "/" ++ commit.snapshot_relpath
    let beforeResult := run beforeFile
    let afterResult := run afterFile
    let base : Bool × Int × List String :=
      if beforeResult.success && afterResult.success then
        let reduction : Int :=
          (beforeResult.findings_count : Int) - (afterResult.findings_count : Int)
        let reduced : Bool := decide (0 < reduction)
        let fixed : List String :=
          if reduced then
            let beforeIssues := ((jsonElems beforeResult.findings).map pyStr).dedup
            let afterIssues := (jsonElems afterResult.findings).map pyStr
            beforeIssues.filter (fun s => ! afterIssues.contains s)
          else []
        (reduced, reduction, fixed)
      else (false, 0, [])
    Except.ok
      { commit_info := commit
        before_result := beforeResult
        after_result := afterResult
        weaknesses_reduced := base.1
        before_count := beforeResult.findings_count
        after_count := afterResult.findings_count
        reduction_count := base.2.1
        fixed_issues := base.2.2 }

/-- Embedding of the persisted `Progress` record of `poutine_docker_batch.py`.
The wall-clock fields `start_time` and `last_update` are omitted: they are
real-time timestamps that never influence control flow. -/
structure Progress where
  processed_count : Nat
  last_commit_sha : Option String
deriving DecidableEq

/-- State of one orchestrator run: the in-memory (and, at checkpoints,
persisted) progress record together with the lines of the append-only
result log `batch_results.jsonl`. -/
structure BatchState where
  progress : Progress
  log : List String
deriving DecidableEq

/-- ASCII whitespace stripped by Python's `str.strip()` (the only
characters that can surround a `json.dumps` log line). -/
def isPyWs (c : Char) : Bool :=
  c = ' ' || c = '\t' || c = '\n' || c = '\r' || c = '\x0b' || c = '\x0c'

/-- Embedding of `line.strip()` as used on result-log lines. -/
def pyStrip (s : String) : String :=
  String.mk (((s.data.dropWhile isPyWs).reverse.dropWhile isPyWs).reverse)

/-- Embedding of `BatchAnalyzer.count_actual_results` (lines 70-78): the
number of non-blank lines of the result log. -/
def countActualResults (log : List String) : Nat :=
  (log.filter (fun line => pyStrip line != "")).length

/-- Startup reconciliation in `main` of `poutine_docker_batch.py`
(lines 219-229): when the persisted counter disagrees with the true number
of log entries, the counter is corrected to the log count and the
corrected record is saved; the log itself is never written. -/
def startupReconcile (p : Progress) (log : List String) : Progress :=
  if p.processed_count != countActualResults log then
    { p with processed_count := countActualResults log }
  else p

/-- Startup of `main` after reconciliation (lines 231-243): without
`--resume` and with a zero counter, a fresh progress record is created;
in every case the result log is left untouched. -/
def batchStartup (resume : Bool) (p : Progress) (log : List String) : BatchState :=
  let p1 := startupReconcile p log
  let p2 :=
    if !resume && p1.processed_count == 0 then
      { processed_count := 0, last_commit_sha := none }
    else p1
  { progress := p2, log := log }

/-- Suffix slicing of `main` (lines 255-267): the unprocessed suffix
`all_commits[processed_count:]`, optionally capped by
`--limit - processed_count` when that remainder is positive. -/
def commitsToProcess (allHits : List CommitInfo) (processedCount : Nat)
    (limit : Option Nat) : List CommitInfo :=
  let suffix := allHits.drop processedCount
  match limit with
  | none => suffix
  | some l => if processedCount < l then suffix.take (l - processedCount) else []

/-- One iteration of the per-hit loop of `main` (lines 290-326): a
successful comparison is appended to the log and the counter recomputed
from the log length; a comparison that raises leaves log and progress
untouched and the loop continues with the next commit.  `serialize`
stands for `json.dumps(result.to_dict())`. -/
def processHit (compare : CommitInfo → Except String ComparisonResult)
    (serialize : ComparisonResult → String) (st : BatchState)
    (c : CommitInfo) : BatchState :=
  match compare c with
  | Except.ok r =>
    let log2 := st.log ++ [serialize r]
    { progress :=
        { processed_count := countActualResults log2
          last_commit_sha := some c.commit_sha }
      log := log2 }
  | Except.error _ => st

/-- One orchestrator run of `main`: startup reconciliation, suffix
slicing, then the sequential per-hit loop.  The returned progress is the
record persisted by the closing `save_progress`. -/
def runBatch (compare : CommitInfo → Except String ComparisonResult)
    (serialize : ComparisonResult → String) (resume : Bool)
    (allHits : List CommitInfo) (limit : Option Nat)
    (p : Progress) (log : List String) : BatchState :=
  let st0 := batchStartup resume p log
  let todo := commitsToProcess allHits st0.progress.processed_count limit
  todo.foldl (processHit compare serialize) st0

/-- One line of `hits.jsonl` in `scan_security_index_and_diffs.py`: either
a hit entry (same keys as `CommitInfo`) or the error entry built by the
per-workflow `except` handler of `main` (lines 188-193). -/
inductive ScanEntry where
  | hit (h : CommitInfo) : ScanEntry
  | failure (org repo error : String) : ScanEntry
deriving DecidableEq

/-- Keys of the dict underlying one entry, as handed to
`csv.DictWriter.writerow`. -/
def ScanEntry.keys : ScanEntry → List String
  | .hit _ =>
    ["org", "repo", "workflow_path", "commit_sha", "commit_date",
     "matched_keywords", "message", "snapshot_relpath", "prev_sha",
     "diff_relpath"]
  | .failure _ _ _ => ["org", "repo", "workflow_path", "commit_sha", "error"]

/-- The scan loop of `main` (lines 184-193): every workflow index document
either contributes its hits or, when its parse raised, exactly one error
entry; the exception is never propagated. -/
def scanWorkflows
    (docs : List (String × String × Except String (List CommitInfo))) :
    List ScanEntry :=
  docs.foldl
    (fun acc doc =>
      match doc.2.2 with
      | Except.ok hs => acc ++ hs.map ScanEntry.hit
      | Except.error e => acc ++ [ScanEntry.failure doc.1 doc.2.1 e])
    []

/-- The `fields` list handed to `csv.DictWriter` in `main` (line 203). -/
def hitsCsvFields : List String :=
  ["org", "repo", "workflow_path", "commit_sha", "commit_date",
   "matched_keywords", "snapshot_relpath", "prev_sha", "diff_relpath",
   "message"]

/-- CSV cell for `matched_keywords` written by `main` (line 211):
`"|".join(row["matched_keywords"])`. -/
def encodeKeywords (keywords : List String) : String :=
  String.intercalate "|" keywords

/-- Rendered cell text of one entry under one key, after `main` replaced
the `matched_keywords` list by its pipe-joined form; `None` values render
as empty cells. -/
def entryCell (e : ScanEntry) (k : String) : String :=
  match e with
  | .hit h =>
    if k = "org" then h.org
    else if k = "repo" then h.repo
    else if k = "workflow_path" then h.workflow_path
    else if k = "commit_sha" then h.commit_sha
    else if k = "commit_date" then h.commit_date
    else if k = "matched_keywords" then encodeKeywords h.matched_keywords
    else if k = "message" then h.message
    else if k = "snapshot_relpath" then h.snapshot_relpath
    else if k = "prev_sha" then h.prev_sha.getD ""
    else if k = "diff_relpath" then h.diff_relpath.getD ""
    else ""
  | .failure org repo err =>
    if k = "org" then org
    else if k = "repo" then repo
    else if k = "error" then err
    else ""

/-- Embedding of `csv.DictWriter.writerow` under the default
`extrasaction` policy: a row dict with a key outside `fieldnames` raises
`ValueError`; missing keys are filled with the empty `restval`. -/
def dictWriterRow (fieldnames : List String) (e : ScanEntry) :
    Except String (List String) :=
  if (ScanEntry.keys e).all (fun k => fieldnames.contains k) then
    Except.ok (fieldnames.map (fun k => entryCell e k))
  else
    Except.error "ValueError: dict contains fields not in fieldnames"

/-- JSON value of an optional string field (`None` becomes `null`). -/
def optJson : Option String → Json
  | none => Json.null
  | some s => Json.str s

/-- JSON object written for one entry on its `hits.jsonl` line. -/
def entryToJson : ScanEntry → Json
  | .hit h =>
    Json.obj
      [("org", Json.str h.org), ("repo", Json.str h.repo),
       ("workflow_path", Json.str h.workflow_path),
       ("commit_sha", Json.str h.commit_sha),
       ("commit_date", Json.str h.commit_date),
       ("matched_keywords", Json.arr (h.matched_keywords.map Json.str)),
       ("message", Json.str h.message),
       ("snapshot_relpath", Json.str h.snapshot_relpath),
       ("prev_sha", optJson h.prev_sha),
       ("diff_relpath", optJson h.diff_relpath)]
  | .failure org repo err =>
    Json.obj
      [("org", Json.str org), ("repo", Json.str repo),
       ("workflow_path", Json.null), ("commit_sha", Json.null),
       ("error", Json.str err)]

/-- The report-writing tail of `main` (lines 195-212): `hits.jsonl` always
succeeds (`json.dumps` is total on entries); `hits.csv` goes row by row
through `csv.DictWriter.writerow`, whose `ValueError` propagates out of
`main`. -/
def writeHitReports (entries : List ScanEntry) :
    Except String (List Json × List (List String)) := do
  let jsonl := entries.map entryToJson
  let csv ← entries.mapM (dictWriterRow hitsCsvFields)
  Except.ok (jsonl, csv)

/-- The whole scan-and-report run: scan every workflow index document,
then write both reports. -/
def scanAndReport
    (docs : List (String × String × Except String (List CommitInfo))) :
    Except String (List Json × List (List String)) :=
  writeHitReports (scanWorkflows docs)

/-- Separator predicate of `pathlib.PureWindowsPath`: both `\` and `/`
separate components. -/
def winSep (c : Char) : Bool := c = '\\' || c = '/'

/-- Separator predicate of `pathlib.PurePosixPath`: only `/` separates
components; a backslash is an ordinary filename character. -/
def posixSep (c : Char) : Bool := c = '/'

/-- Split a character list at separator characters: the groups between
separators, in order (leading, trailing and doubled separators produce
empty groups). -/
def splitSeps (sep : Char → Bool) : List Char → List (List Char)
  | [] => [[]]
  | c :: cs =>
    match splitSeps sep cs with
    | [] => [[c]]
    | g :: gs => if sep c then [] :: g :: gs else (c :: g) :: gs

/-- Components of a drive-less, non-anchored relative path under `pathlib`
parsing: split at the flavour's separators, dropping empty and `.`
segments.  This is what `PurePosixPath(s).parts` and
`PureWindowsPath(s).parts` yield for relative paths with no drive letter
and no leading separator — the shape of every `raw_snapshot_relpath` the
scanner receives. -/
def pathParts (sep : Char → Bool) (s : String) : List String :=
  ((splitSeps sep s.data).filter (fun g => !g.isEmpty && g != ['.'])).map
    (fun g => String.mk g)

/-- Embedding of `normalize_relpath` (lines 46-53): a string containing a
backslash and no forward slash is parsed as a Windows path; everything
else is parsed as a POSIX path.  The function returns the component list
that `Path(*p.parts)` carries back to the caller. -/
def normalizeRelpath (rel : String) : List String :=
  if rel.data.contains '\\' && !(rel.data.contains '/') then
    pathParts winSep rel
  else
    pathParts posixSep rel

/-- Resolution of a snapshot path in `scan_repo_workflow_json`
(line 90): `root / normalize_relpath(raw_rel)`, as the component list of
the joined path. -/
def resolveSnapshotPath (root : List String) (rel : String) : List String :=
  root ++ normalizeRelpath rel

/-- Replace every backslash by a forward slash. -/
def backslashToSlash (s : String) : String :=
  String.mk (s.data.map (fun c => if c = '\\' then '/' else c))

/-- Continuation-byte test for strict UTF-8. -/
def utf8Cont (b : Nat) : Bool := 0x80 ≤ b && b ≤ 0xBF

/-- Decode one UTF-8 sequence with lead byte `b1` and remaining bytes
`t1`, returning the scalar value and the rest, or `none` when no valid
sequence starts here.  The ranges are exactly strict (RFC 3629) UTF-8 as
enforced by CPython's decoder: no overlong forms, no surrogates, nothing
above `U+10FFFF`. -/
def utf8DecodeOne (b1 : Nat) (t1 : List Nat) : Option (Nat × List Nat) :=
  if b1 < 0x80 then some (b1, t1)
  else
    match t1 with
    | [] => none
    | b2 :: t2 =>
      if 0xC2 ≤ b1 && b1 ≤ 0xDF && utf8Cont b2 then
        some ((b1 - 0xC0) * 0x40 + (b2 - 0x80), t2)
      else
        match t2 with
        | [] => none
        | b3 :: t3 =>
          if ((b1 == 0xE0 && 0xA0 ≤ b2 && b2 ≤ 0xBF) ||
              (0xE1 ≤ b1 && b1 ≤ 0xEC && utf8Cont b2) ||
              (b1 == 0xED && 0x80 ≤ b2 && b2 ≤ 0x9F) ||
              (0xEE ≤ b1 && b1 ≤ 0xEF && utf8Cont b2)) && utf8Cont b3 then
            some ((b1 - 0xE0) * 0x1000 + (b2 - 0x80) * 0x40 + (b3 - 0x80), t3)
          else
            match t3 with
            | [] => none
            | b4 :: t4 =>
              if ((b1 == 0xF0 && 0x90 ≤ b2 && b2 ≤ 0xBF) ||
                  (0xF1 ≤ b1 && b1 ≤ 0xF3 && utf8Cont b2) ||
                  (b1 == 0xF4 && 0x80 ≤ b2 && b2 ≤ 0x8F)) &&
                  utf8Cont b3 && utf8Cont b4 then
                some ((b1 - 0xF0) * 0x40000 + (b2 - 0x80) * 0x1000 +
                  (b3 - 0x80) * 0x40 + (b4 - 0x80), t4)
              else none

/-- Fueled decoding loop for `errors="ignore"`: decode a valid sequence
and keep its character, or silently drop one byte and resume.  Dropping
single bytes yields the same output as CPython's maximal-subpart error
spans, because every byte inside such a span is either the invalid lead
(dropped) or a continuation byte, and a continuation byte can never start
a valid sequence. -/
def decodeUtf8IgnoreAux : Nat → List Nat → List Char
  | 0, _ => []
  | _, [] => []
  | fuel + 1, b :: rest =>
    match utf8DecodeOne b rest with
    | some (n, rest2) => Char.ofNat n :: decodeUtf8IgnoreAux fuel rest2
    | none => decodeUtf8IgnoreAux fuel rest

/-- Embedding of `bytes.decode("utf-8", errors="ignore")`, the decode
stage of `read_text_maybe_gz` (lines 55-64) for both the gzip branch and
the `Path.read_text(encoding="utf-8", errors="ignore")` branch.  Each
loop step consumes at least one byte, so fuel equal to the byte count
never runs out. -/
def decodeUtf8Ignore (bs : List Nat) : List Char :=
  decodeUtf8IgnoreAux bs.length bs

/-- The decode stage of `read_text_maybe_gz` applied to the raw bytes of
the (possibly already gzip-decompressed) snapshot file: Python decodes
with `errors="ignore"`, so this layer never raises. -/
def readSnapshotText (bs : List Nat) : List Char :=
  decodeUtf8Ignore bs

/-- Standard UTF-8 encoding of one scalar value (Lean's `Char` is a
Unicode scalar value, exactly the domain of Python `str` characters). -/
def utf8EncodeChar (c : Char) : List Nat :=
  let n := c.toNat
  if n < 0x80 then [n]
  else if n < 0x800 then [0xC0 + n / 0x40, 0x80 + n % 0x40]
  else if n < 0x10000 then
    [0xE0 + n / 0x1000, 0x80 + n / 0x40 % 0x40, 0x80 + n % 0x40]
  else
    [0xF0 + n / 0x40000, 0x80 + n / 0x1000 % 0x40, 0x80 + n / 0x40 % 0x40,
     0x80 + n % 0x40]

/-- UTF-8 encoding of a character list. -/
def utf8Encode (cs : List Char) : List Nat :=
  (cs.map utf8EncodeChar).flatten

/-- JSON whitespace accepted by Python's scanner. -/
def isJsonWs (c : Char) : Bool := c = ' ' || c = '\t' || c = '\n' || c = '\r'

/-- Skip leading JSON whitespace. -/
def skipJsonWs : List Char → List Char
  | [] => []
  | c :: cs => if isJsonWs c then skipJsonWs cs else c :: cs

/-- Hexadecimal digit test for `\uXXXX` escapes. -/
def isHexDig (c : Char) : Bool :=
  ('0' ≤ c && c ≤ '9') || ('a' ≤ c && c ≤ 'f') || ('A' ≤ c && c ≤ 'F')

/-- Value of a hexadecimal digit. -/
def hexVal (c : Char) : Nat :=
  if '0' ≤ c && c ≤ '9' then c.toNat - '0'.toNat
  else if 'a' ≤ c && c ≤ 'f' then c.toNat - 'a'.toNat + 10
  else if 'A' ≤ c && c ≤ 'F' then c.toNat - 'A'.toNat + 10
  else 0

/-- Body of a JSON string after the opening quote: strict mode (raw
control characters rejected), the standard escapes, and `\uXXXX` with
surrogate-pair combination.  (CPython additionally tolerates lone
surrogates, which a Lean `Char` cannot carry; no analyzer output in this
pipeline contains them.) -/
def parseJsonStringAux (acc : List Char) : List Char → Option (String × List Char)
  | [] => none
  | '"' :: rest => some (String.mk acc.reverse, rest)
  | '\\' :: rest =>
    match rest with
    | '"' :: r => parseJsonStringAux ('"' :: acc) r
    | '\\' :: r => parseJsonStringAux ('\\' :: acc) r
    | '/' :: r => parseJsonStringAux ('/' :: acc) r
    | 'b' :: r => parseJsonStringAux ('\x08' :: acc) r
    | 'f' :: r => parseJsonStringAux ('\x0c' :: acc) r
    | 'n' :: r => parseJsonStringAux ('\n' :: acc) r
    | 'r' :: r => parseJsonStringAux ('\r' :: acc) r
    | 't' :: r => parseJsonStringAux ('\t' :: acc) r
    | 'u' :: h1 :: h2 :: h3 :: h4 :: r =>
      if isHexDig h1 && isHexDig h2 && isHexDig h3 && isHexDig h4 then
        let v := ((hexVal h1 * 16 + hexVal h2) * 16 + hexVal h3) * 16 + hexVal h4
        if 0xD800 ≤ v && v ≤ 0xDBFF then
          match r with
          | '\\' :: 'u' :: g1 :: g2 :: g3 :: g4 :: r2 =>
            if isHexDig g1 && isHexDig g2 && isHexDig g3 && isHexDig g4 then
              let w := ((hexVal g1 * 16 + hexVal g2) * 16 + hexVal g3) * 16 + hexVal g4
              if 0xDC00 ≤ w && w ≤ 0xDFFF then
                parseJsonStringAux
                  (Char.ofNat (0x10000 + (v - 0xD800) * 0x400 + (w - 0xDC00)) :: acc) r2
              else none
            else none
          | _ => none
        else if 0xDC00 ≤ v && v ≤ 0xDFFF then none
        else parseJsonStringAux (Char.ofNat v :: acc) r
      else none
    | _ => none
  | c :: rest =>
    if c.toNat < 0x20 then none else parseJsonStringAux (c :: acc) rest

/-- Take a maximal run of decimal digits. -/
def takeDigits : List Char → List Char × List Char
  | [] => ([], [])
  | c :: cs =>
    if c.isDigit then
      let p := takeDigits cs
      (c :: p.1, p.2)
    else ([], c :: cs)

/-- Fraction and exponent parts of Python's `NUMBER_RE`
(`(-?(?:0|[1-9]\d*))(\.\d+)?([eE][-+]?\d+)?`); a dot or exponent marker
without digits is simply not part of the number. -/
def parseFracExp (intPart : List Char) (cs : List Char) : Option (String × List Char) :=
  let fp : List Char × List Char :=
    match cs with
    | '.' :: r =>
      let p := takeDigits r
      if p.1.isEmpty then ([], cs) else ('.' :: p.1, p.2)
    | _ => ([], cs)
  let ep : List Char × List Char :=
    match fp.2 with
    | e :: r =>
      if e = 'e' || e = 'E' then
        let sp : List Char × List Char :=
          match r with
          | '+' :: r2 => (['+'], r2)
          | '-' :: r2 => (['-'], r2)
          | _ => ([], r)
        let p := takeDigits sp.2
        if p.1.isEmpty then ([], fp.2) else (e :: (sp.1 ++ p.1), p.2)
      else ([], fp.2)
    | [] => ([], fp.2)
  some (String.mk (intPart ++ fp.1 ++ ep.1), ep.2)

/-- A JSON number per Python's `NUMBER_RE`: optional sign, integer part
with no leading zeros, optional fraction and exponent. -/
def parseJsonNumber (cs : List Char) : Option (String × List Char) :=
  let sp : List Char × List Char :=
    match cs with
    | '-' :: r => (['-'], r)
    | _ => ([], cs)
  match sp.2 with
  | '0' :: r => parseFracExp (sp.1 ++ ['0']) r
  | c :: r =>
    if c.isDigit then
      let p := takeDigits r
      parseFracExp (sp.1 ++ c :: p.1) p.2
    else none
  | [] => none

mutual

/-- Fueled recursive-descent JSON value parser mirroring Python's
`json.loads` scanner (strings, numbers, literals including the non-spec
`NaN`/`Infinity` constants, arrays, objects).  Fuel only bounds recursion
depth; callers supply more fuel than the input length, so it never runs
out on any input. -/
def parseJsonValue : Nat → List Char → Option (Json × List Char)
  | 0, _ => none
  | fuel + 1, cs =>
    match skipJsonWs cs with
    | [] => none
    | c :: rest =>
      if c = '"' then
        match parseJsonStringAux [] rest with
        | some (s, r) => some (Json.str s, r)
        | none => none
      else if c = '[' then parseJsonArrayStart fuel (skipJsonWs rest)
      else if c = '{' then parseJsonObjStart fuel (skipJsonWs rest)
      else if c = 'n' then
        match rest with
        | 'u' :: 'l' :: 'l' :: r => some (Json.null, r)
        | _ => none
      else if c = 't' then
        match rest with
        | 'r' :: 'u' :: 'e' :: r => some (Json.bool true, r)
        | _ => none
      else if c = 'f' then
        match rest with
        | 'a' :: 'l' :: 's' :: 'e' :: r => some (Json.bool false, r)
        | _ => none
      else if c = 'N' then
        match rest with
        | 'a' :: 'N' :: r => some (Json.num "NaN", r)
        | _ => none
      else if c = 'I' then
        match rest with
        | 'n' :: 'f' :: 'i' :: 'n' :: 'i' :: 't' :: 'y' :: r =>
          some (Json.num "Infinity", r)
        | _ => none
      else if c = '-' then
        match rest with
        | 'I' :: 'n' :: 'f' :: 'i' :: 'n' :: 'i' :: 't' :: 'y' :: r =>
          some (Json.num "-Infinity", r)
        | _ =>
          match parseJsonNumber (c :: rest) with
          | some (raw, r) => some (Json.num raw, r)
          | none => none
      else
        match parseJsonNumber (c :: rest) with
        | some (raw, r) => some (Json.num raw, r)
        | none => none

/-- First element of an array (or its immediate closing bracket). -/
def parseJsonArrayStart : Nat → List Char → Option (Json × List Char)
  | 0, _ => none
  | fuel + 1, cs =>
    match cs with
    | ']' :: r => some (Json.arr [], r)
    | _ =>
      match parseJsonValue fuel cs with
      | some (v, r) => parseJsonArrayRest fuel (skipJsonWs r) [v]
      | none => none

/-- Remaining elements of an array after at least one element. -/
def parseJsonArrayRest : Nat → List Char → List Json → Option (Json × List Char)
  | 0, _, _ => none
  | fuel + 1, cs, acc =>
    match cs with
    | ']' :: r => some (Json.arr acc.reverse, r)
    | ',' :: r =>
      match parseJsonValue fuel r with
      | some (v, r2) => parseJsonArrayRest fuel (skipJsonWs r2) (v :: acc)
      | none => none
    | _ => none

/-- First member of an object (or its immediate closing brace). -/
def parseJsonObjStart : Nat → List Char → Option (Json × List Char)
  | 0, _ => none
  | fuel + 1, cs =>
    match cs with
    | '}' :: r => some (Json.obj [], r)
    | '"' :: r =>
      match parseJsonStringAux [] r with
      | some (k, r2) =>
        match skipJsonWs r2 with
        | ':' :: r3 =>
          match parseJsonValue fuel r3 with
          | some (v, r4) => parseJsonObjRest fuel (skipJsonWs r4) [(k, v)]
          | none => none
        | _ => none
      | none => none
    | _ => none

/-- Remaining members of an object after at least one member. -/
def parseJsonObjRest : Nat → List Char → List (String × Json) →
    Option (Json × List Char)
  | 0, _, _ => none
  | fuel + 1, cs, acc =>
    match cs with
    | '}' :: r => some (Json.obj acc.reverse, r)
    | ',' :: r =>
      match skipJsonWs r with
      | '"' :: r1 =>
        match parseJsonStringAux [] r1 with
        | some (k, r2) =>
          match skipJsonWs r2 with
          | ':' :: r3 =>
            match parseJsonValue fuel r3 with
            | some (v, r4) => parseJsonObjRest fuel (skipJsonWs r4) ((k, v) :: acc)
            | none => none
          | _ => none
        | none => none
      | _ => none
    | _ => none

end

/-- Embedding of `json.loads`: parse one value and require only trailing
whitespace after it. -/
def jsonLoads (s : String) : Option Json :=
  match parseJsonValue (2 * s.length + 4) s.data with
  | some (v, rest) => if (skipJsonWs rest).isEmpty then some v else none
  | none => none

/-- Lookup in a Python dict built by `json.loads` from an object: later
duplicate keys overwrite earlier ones, and a missing key yields the
default — this is `output.get("findings", [])`. -/
def pyDictGet (members : List (String × Json)) (k : String) (dflt : Json) : Json :=
  (members.foldl (fun acc m => if m.1 == k then some m.2 else acc) none).getD dflt

/-- Python's `len(·)` on a JSON-decoded value: defined for lists, strings
and dicts (distinct keys), a `TypeError` otherwise. -/
def pyLen : Json → Option Nat
  | Json.arr xs => some xs.length
  | Json.str s => some s.length
  | Json.obj ms => some ((ms.map Prod.fst).dedup).length
  | _ => none

/-- Non-overlapping substring count, Python's `str.count` as used in
`result.stdout.count("Finding:")`.  Fueled for structural recursion: each
step consumes at least one character, so fuel equal to the text length
never runs out. -/
def countSubstrAux (pat : List Char) : Nat → List Char → Nat
  | 0, _ => 0
  | _, [] => 0
  | fuel + 1, c :: cs =>
    if pat.isPrefixOf (c :: cs) then
      1 + countSubstrAux pat fuel (cs.drop (pat.length - 1))
    else
      countSubstrAux pat fuel cs

/-- Python's `str.count` on strings. -/
def countSubstr (pat s : String) : Nat :=
  countSubstrAux pat.data s.data.length s.data

/-- What `subprocess.run(..., capture_output=True, text=True)` returns:
exit code and captured streams. -/
structure ProcResult where
  returncode : Int
  stdout : String
  stderr : String
deriving DecidableEq

/-- The shared stdout-parsing policy of `run_poutine_on_workflow`
(`poutine_docker_optimized.py` lines 308-322, `poutine_docker.py`
lines 204-217, `poutine_analysis_fixed.py` both variants): structured
parse first — a JSON list is the findings themselves, a JSON object is
read under its `findings` key — and on `json.JSONDecodeError` a textual
fallback counting `"Finding:"` markers with an empty findings list.  A
`len()` type error on a non-sized `findings` value escapes the narrow
`except json.JSONDecodeError` handler and is reported through the outer
catch-all as a failure. -/
def parsePoutineStdout (stdout : String) : Except String (Json × Nat) :=
  match jsonLoads stdout with
  | some (Json.arr xs) => Except.ok (Json.arr xs, xs.length)
  | some (Json.obj ms) =>
    let fs := pyDictGet ms "findings" (Json.arr [])
    match pyLen fs with
    | some n => Except.ok (fs, n)
    | none => Except.error "TypeError: object has no len()"
  | some _ => Except.ok (Json.arr [], 0)
  | none => Except.ok (Json.arr [], countSubstr "Finding:" stdout)

/-- Result construction of `PoutineDockerOptimized.run_poutine_on_workflow`
(lines 308-330) from the completed `docker exec` process: stdout is parsed
whenever it is non-empty, regardless of the exit code; the result is
`success=True` with `raw_output = stdout + "\n" + stderr`, and an escaped
exception lands in the outer handler as a failure. -/
def optimizedRunParse (r : ProcResult) : PoutineResult :=
  if r.stdout != "" then
    match parsePoutineStdout r.stdout with
    | Except.ok p =>
      { success := true, error_message := none, findings_count := p.2,
        findings := p.1, raw_output := r.stdout ++ "\n" ++ r.stderr }
    | Except.error e =>
      { success := false,
        error_message := some ("Error running Poutine: " ++ e),
        findings_count := 0, findings := Json.arr [], raw_output := "" }
  else
    { success := true, error_message := none, findings_count := 0,
      findings := Json.arr [], raw_output := r.stdout ++ "\n" ++ r.stderr }

/-- Result construction of `PoutineDockerAnalyzer.run_poutine_on_workflow`
(`poutine_docker.py` lines 202-226; the same gate appears in
`_run_native` of `poutine_analysis_fixed.py`): identical policy, but the
parse is attempted only when `result.returncode == 0` — with a non-zero
exit code stdout is ignored and the result is `success=True` with zero
findings. -/
def ephemeralRunParse (r : ProcResult) : PoutineResult :=
  if r.returncode == 0 && r.stdout != "" then
    match parsePoutineStdout r.stdout with
    | Except.ok p =>
      { success := true, error_message := none, findings_count := p.2,
        findings := p.1, raw_output := r.stdout ++ "\n" ++ r.stderr }
    | Except.error e =>
      { success := false,
        error_message := some ("Error running Poutine: " ++ e),
        findings_count := 0, findings := Json.arr [], raw_output := "" }
  else
    { success := true, error_message := none, findings_count := 0,
      findings := Json.arr [], raw_output := r.stdout ++ "\n" ++ r.stderr }

/-- Line-boundary characters of Python's `str.splitlines`. -/
def isLineBreak (c : Char) : Bool :=
  c = '\n' || c = '\r' || c = '\x0b' || c = '\x0c' ||
  c = '\x1c' || c = '\x1d' || c = '\x1e' || c = '\x85' ||
  c = '\u2028' || c = '\u2029'

/-- Embedding of `str.splitlines(keepends=True)`: cut after every line
boundary, treating `\r\n` as one boundary; a final segment without a
terminator is kept as a last line. -/
def splitlinesAux (cur : List Char) : List Char → List (List Char)
  | [] => if cur.isEmpty then [] else [cur.reverse]
  | '\r' :: '\n' :: rest => (cur.reverse ++ ['\r', '\n']) :: splitlinesAux [] rest
  | c :: rest =>
    if isLineBreak c then (cur.reverse ++ [c]) :: splitlinesAux [] rest
    else splitlinesAux (c :: cur) rest

/-- `text.splitlines(keepends=True)` on strings. -/
def pySplitlinesKeepends (s : String) : List String :=
  (splitlinesAux [] s.data).map (fun l => String.mk l)

/-- Python's `"".join(...)` over a list of strings. -/
def concatStrings (ls : List String) : String :=
  String.mk ((ls.map String.data).flatten)

/-- Positions of a line in the `b` sequence (`difflib`'s `b2j`), with the
`autojunk` heuristic of `SequenceMatcher(None, a, b)`: when `b` has at
least 200 lines, lines occurring in more than `len(b)/100 + 1` of them
are dropped from the index (the `bjunk` set stays empty because no
`isjunk` predicate is supplied). -/
def b2jOf (b : List String) (x : String) : List Nat :=
  let idxs := (List.range b.length).filter (fun j => b.get? j == some x)
  if b.length ≥ 200 && idxs.length > b.length / 100 + 1 then [] else idxs

/-- Inner loop of `find_longest_match`: for each candidate position `j`
of line `a[i]` in `b` (already filtered to `[blo, bhi)`, in ascending
order), record in the new row the length of the matching run ending at
`(i, j)` and track the best run seen.  `old` is the run-length table of
row `i-1`; the `j = 0` guard mirrors Python's dictionary miss at key
`-1`. -/
def flmInner (i : Nat) (old : Nat → Nat) :
    List Nat → (Nat → Nat) → Nat × Nat × Nat → (Nat → Nat) × (Nat × Nat × Nat)
  | [], nj, best => (nj, best)
  | j :: js, nj, best =>
    let k := (if j = 0 then 0 else old (j - 1)) + 1
    let nj2 : Nat → Nat := Function.update nj j k
    let best2 := if best.2.2 < k then (i + 1 - k, j + 1 - k, k) else best
    flmInner i old js nj2 best2

/-- Outer loop of `find_longest_match` over `i ∈ [alo, ahi)` (`steps`
counts down from `ahi - alo`; callers keep `i` within `a`, so the `getD`
default is never read). -/
def flmOuter (a b : List String) (blo bhi : Nat) :
    Nat → Nat → (Nat → Nat) → Nat × Nat × Nat → Nat × Nat × Nat
  | 0, _, _, best => best
  | steps + 1, i, j2len, best =>
    let js := (b2jOf b (a.getD i "")).filter (fun j => blo ≤ j && j < bhi)
    let p := flmInner i j2len js (fun _ => 0) best
    flmOuter a b blo bhi steps (i + 1) p.1 p.2

/-- Backward extension of the best match over equal adjacent lines (the
junk guards of `difflib` are vacuous since `bjunk` is empty). -/
def flmExtendBack (a b : List String) (alo blo : Nat) :
    Nat → Nat × Nat × Nat → Nat × Nat × Nat
  | 0, best => best
  | fuel + 1, (bi, bj, bk) =>
    if alo < bi && blo < bj && a.getD (bi - 1) "" == b.getD (bj - 1) "" then
      flmExtendBack a b alo blo fuel (bi - 1, bj - 1, bk + 1)
    else (bi, bj, bk)

/-- Forward extension of the best match over equal adjacent lines. -/
def flmExtendFwd (a b : List String) (ahi bhi : Nat) :
    Nat → Nat × Nat × Nat → Nat × Nat × Nat
  | 0, best => best
  | fuel + 1, (bi, bj, bk) =>
    if bi + bk < ahi && bj + bk < bhi && a.getD (bi + bk) "" == b.getD (bj + bk) "" then
      flmExtendFwd a b ahi bhi fuel (bi, bj, bk + 1)
    else (bi, bj, bk)

/-- Embedding of `SequenceMatcher.find_longest_match` on
`[alo, ahi) × [blo, bhi)`: the longest-run dynamic program followed by
the two (non-junk) extension loops.  The extension fuels `alo`-to-`bi`
and `ahi` strictly exceed the possible number of extension steps. -/
def findLongestMatch (a b : List String) (alo ahi blo bhi : Nat) : Nat × Nat × Nat :=
  let best0 := flmOuter a b blo bhi (ahi - alo) alo (fun _ => 0) (alo, blo, 0)
  let best1 := flmExtendBack a b alo blo best0.1 best0
  flmExtendFwd a b ahi bhi ahi best1

/-- Recursive core of `get_matching_blocks`: emit the longest match of
each interval and recurse on both sides.  The in-order traversal yields
the same ascending block list as difflib's queue-then-sort.  Each
recursive call strictly shrinks the combined interval size (`k ≥ 1`), so
the fuel of `a.length + b.length + 1` supplied below never runs out. -/
def matchBlocksRec (a b : List String) :
    Nat → Nat → Nat → Nat → Nat → List (Nat × Nat × Nat)
  | 0, _, _, _, _ => []
  | fuel + 1, alo, ahi, blo, bhi =>
    let m := findLongestMatch a b alo ahi blo bhi
    if m.2.2 = 0 then []
    else
      matchBlocksRec a b fuel alo m.1 blo m.2.1 ++ [m] ++
        matchBlocksRec a b fuel (m.1 + m.2.2) ahi (m.2.1 + m.2.2) bhi

/-- Adjacent-block merging of `get_matching_blocks`. -/
def mergeAdjacent : Nat × Nat × Nat → List (Nat × Nat × Nat) → List (Nat × Nat × Nat)
  | (i1, j1, k1), [] => if k1 ≠ 0 then [(i1, j1, k1)] else []
  | (i1, j1, k1), (i2, j2, k2) :: rest =>
    if i1 + k1 = i2 ∧ j1 + k1 = j2 then mergeAdjacent (i1, j1, k1 + k2) rest
    else
      (if k1 ≠ 0 then [(i1, j1, k1)] else []) ++ mergeAdjacent (i2, j2, k2) rest

/-- Embedding of `SequenceMatcher.get_matching_blocks`, ending with the
`(la, lb, 0)` sentinel. -/
def getMatchingBlocks (a b : List String) : List (Nat × Nat × Nat) :=
  mergeAdjacent (0, 0, 0)
    (matchBlocksRec a b (a.length + b.length + 1) 0 a.length 0 b.length) ++
    [(a.length, b.length, 0)]

/-- Opcode tags of `SequenceMatcher.get_opcodes`. -/
inductive OpTag where
  | rep : OpTag
  | del : OpTag
  | ins : OpTag
  | eq : OpTag
deriving DecidableEq

/-- One opcode `(tag, i1, i2, j1, j2)`. -/
structure Opcode where
  tag : OpTag
  a1 : Nat
  a2 : Nat
  b1 : Nat
  b2 : Nat
deriving DecidableEq

/-- Loop of `get_opcodes`: a gap opcode before each matching block, then
an `equal` opcode for the block itself. -/
def getOpcodesAux : Nat → Nat → List (Nat × Nat × Nat) → List Opcode
  | _, _, [] => []
  | i, j, (ai, bj, size) :: rest =>
    (if i < ai ∧ j < bj then [⟨OpTag.rep, i, ai, j, bj⟩]
     else if i < ai then [⟨OpTag.del, i, ai, j, bj⟩]
     else if j < bj then [⟨OpTag.ins, i, ai, j, bj⟩]
     else []) ++
    (if size ≠ 0 then [⟨OpTag.eq, ai, ai + size, bj, bj + size⟩] else []) ++
    getOpcodesAux (ai + size) (bj + size) rest

/-- Embedding of `SequenceMatcher.get_opcodes`. -/
def getOpcodes (a b : List String) : List Opcode :=
  getOpcodesAux 0 0 (getMatchingBlocks a b)

/-- Trim the leading context of an initial `equal` opcode
(`get_grouped_opcodes`, context size 3). -/
def adjustFirst : List Opcode → List Opcode
  | ⟨OpTag.eq, i1, i2, j1, j2⟩ :: rest =>
    ⟨OpTag.eq, max i1 (i2 - 3), i2, max j1 (j2 - 3), j2⟩ :: rest
  | codes => codes

/-- Trim the trailing context of a final `equal` opcode. -/
def adjustLast : List Opcode → List Opcode
  | [] => []
  | [⟨OpTag.eq, i1, i2, j1, j2⟩] =>
    [⟨OpTag.eq, i1, min i2 (i1 + 3), j1, min j2 (j1 + 3)⟩]
  | [c] => [c]
  | c :: rest => c :: adjustLast rest

/-- Grouping loop of `get_grouped_opcodes`: split oversized `equal`
opcodes (more than `2*3` lines) and cut a group boundary through them; a
leftover group consisting of one `equal` opcode is not emitted. -/
def groupLoop : List Opcode → List Opcode → List (List Opcode) → List (List Opcode)
  | [], group, out =>
    (match group with
     | [] => out
     | [⟨OpTag.eq, _, _, _, _⟩] => out
     | _ => out ++ [group])
  | ⟨tag, i1, i2, j1, j2⟩ :: rest, group, out =>
    if tag = OpTag.eq ∧ i1 + 6 < i2 then
      groupLoop rest [⟨tag, max i1 (i2 - 3), i2, max j1 (j2 - 3), j2⟩]
        (out ++ [group ++ [⟨tag, i1, min i2 (i1 + 3), j1, min j2 (j1 + 3)⟩]])
    else groupLoop rest (group ++ [⟨tag, i1, i2, j1, j2⟩]) out

/-- Embedding of `SequenceMatcher.get_grouped_opcodes` with the default
context of 3 lines (including the placeholder opcode for two empty
sequences). -/
def groupedOpcodes (a b : List String) : List (List Opcode) :=
  let codes := getOpcodes a b
  let codes := if codes.isEmpty then [⟨OpTag.eq, 0, 1, 0, 1⟩] else codes
  groupLoop (adjustLast (adjustFirst codes)) [] []

/-- Decimal digits of a natural number (fueled; fuel `n + 1` suffices). -/
def natDecAux : Nat → Nat → List Char
  | 0, _ => []
  | fuel + 1, n =>
    if n < 10 then [Char.ofNat (48 + n)]
    else natDecAux fuel (n / 10) ++ [Char.ofNat (48 + n % 10)]

/-- Decimal rendering of a natural number (Python's `str`). -/
def natToStr (n : Nat) : String := String.mk (natDecAux (n + 1) n)

/-- Embedding of `difflib._format_range_unified`. -/
def fmtRangeUnified (start stop : Nat) : String :=
  let beginning := start + 1
  let length := stop - start
  if length = 1 then natToStr beginning
  else
    natToStr (if length = 0 then beginning - 1 else beginning) ++ "," ++
      natToStr length

/-- The `@@ -r1 +r2 @@` hunk header line of one group. -/
def hunkHeader (g : List Opcode) : String :=
  let first := g.headD ⟨OpTag.eq, 0, 0, 0, 0⟩
  let last := g.getLastD ⟨OpTag.eq, 0, 0, 0, 0⟩
  "@@ -" ++ fmtRangeUnified first.a1 last.a2 ++ " +" ++
    fmtRangeUnified first.b1 last.b2 ++ " @@\n"

/-- Tagged diff body lines of one opcode: `' '`, `-`, `+` prefixes with
keep-line-terminator contents. -/
def opLines (a b : List String) (op : Opcode) : List String :=
  match op.tag with
  | OpTag.eq => ((a.drop op.a1).take (op.a2 - op.a1)).map (fun l => " " ++ l)
  | OpTag.del => ((a.drop op.a1).take (op.a2 - op.a1)).map (fun l => "-" ++ l)
  | OpTag.ins => ((b.drop op.b1).take (op.b2 - op.b1)).map (fun l => "+" ++ l)
  | OpTag.rep =>
    ((a.drop op.a1).take (op.a2 - op.a1)).map (fun l => "-" ++ l) ++
      ((b.drop op.b1).take (op.b2 - op.b1)).map (fun l => "+" ++ l)

/-- The line stream of `difflib.unified_diff(a, b, fromfile, tofile)`
with default context and `lineterm="\n"` (headers appear only when at
least one group exists). -/
def unifiedDiffLines (a b : List String) (fromfile tofile : String) : List String :=
  let groups := groupedOpcodes a b
  if groups.isEmpty then []
  else
    ("--- " ++ fromfile ++ "\n") :: ("+++ " ++ tofile ++ "\n") ::
      (groups.map (fun g => hunkHeader g :: (g.map (opLines a b)).flatten)).flatten

/-- Embedding of `unified_diff_text` (`scan_security_index_and_diffs.py`
lines 66-69): split both texts with `splitlines(keepends=True)`, run
`difflib.unified_diff`, and join the resulting lines into one blob. -/
def unifiedDiffText (oldText newText fromfile tofile : String) : String :=
  concatStrings
    (unifiedDiffLines (pySplitlinesKeepends oldText)
      (pySplitlinesKeepends newText) fromfile tofile)

/-- Digit-list value for the hunk-header parser. -/
def digitsToNat (ds : List Char) : Nat :=
  ds.foldl (fun acc c => acc * 10 + (c.toNat - 48)) 0

/-- Parse a decimal number, requiring at least one digit. -/
def parseDecimal (cs : List Char) : Option (Nat × List Char) :=
  let p := takeDigits cs
  if p.1.isEmpty then none else some (digitsToNat p.1, p.2)

/-- Parse one side of a hunk header (`start[,length]`), returning the
0-based start index and the length, under the unified-diff convention
that the shown start of a zero-length range is not decremented. -/
def parseHunkRange (cs : List Char) : Option ((Nat × Nat) × List Char) :=
  match parseDecimal cs with
  | none => none
  | some (beg, rest) =>
    match rest with
    | ',' :: rest2 =>
      match parseDecimal rest2 with
      | none => none
      | some (len, rest3) =>
        some ((if len = 0 then beg else beg - 1, len), rest3)
    | _ => some ((beg - 1, 1), rest)

/-- Parse a `@@ -r1 +r2 @@` hunk header line. -/
def parseHunkHeader (line : String) : Option (Nat × Nat × Nat × Nat) :=
  match line.data with
  | '@' :: '@' :: ' ' :: '-' :: cs =>
    match parseHunkRange cs with
    | none => none
    | some ((s1, l1), rest) =>
      match rest with
      | ' ' :: '+' :: cs2 =>
        match parseHunkRange cs2 with
        | none => none
        | some ((s2, l2), rest2) =>
          if rest2 = [' ', '@', '@', '\n'] then some (s1, l1, s2, l2) else none
      | _ => none
  | _ => none

/-- Modelled from the spec: the body interpreter of a standard
line-oriented unified-diff patch tool (the repository only generates
diffs; applying one "as a patch" is the external operation the
round-trip law quantifies over).  It consumes exactly `src` source and
`tgt` target line slots, checks context and deletion lines against the
source text, and accumulates the patched lines. -/
def applyBodyAux (olines : List String) :
    Nat → Nat → List String → Nat → List String →
    Option (List String × Nat × List String)
  | src, tgt, [], pos, acc =>
    if src = 0 ∧ tgt = 0 then some ([], pos, acc) else none
  | src, tgt, l :: rest, pos, acc =>
    if src = 0 ∧ tgt = 0 then some (l :: rest, pos, acc)
    else
      match l.data with
        | ' ' :: content =>
          if 0 < src ∧ 0 < tgt ∧ olines.get? pos = some (String.mk content) then
            applyBodyAux olines (src - 1) (tgt - 1) rest (pos + 1)
              (acc ++ [String.mk content])
          else none
        | '-' :: content =>
          if 0 < src ∧ olines.get? pos = some (String.mk content) then
            applyBodyAux olines (src - 1) tgt rest (pos + 1) acc
          else none
        | '+' :: content =>
          if 0 < tgt then
            applyBodyAux olines src (tgt - 1) rest pos
              (acc ++ [String.mk content])
          else none
        | _ => none

/-- Modelled from the spec: the hunk loop of a standard unified-diff
patch tool — copy the unchanged source up to each hunk start, run the
hunk body, and copy the remaining source after the last hunk.  (The
target start of each hunk is implied and therefore ignored, as in
`patch`.) -/
def applyHunksAux (olines : List String) :
    Nat → List String → Nat → List String → Option (List String)
  | 0, _, _, _ => none
  | _ + 1, [], pos, acc => some (acc ++ olines.drop pos)
  | fuel + 1, hl :: rest, pos, acc =>
    match parseHunkHeader hl with
    | none => none
    | some (s1, l1, _, l2) =>
      if pos ≤ s1 then
        match
          applyBodyAux olines l1 l2 rest s1
            (acc ++ (olines.drop pos).take (s1 - pos)) with
        | some (rest2, pos2, acc2) => applyHunksAux olines fuel rest2 pos2 acc2
        | none => none
      else none

/-- Modelled from the spec: applying a unified-diff blob as a patch —
split the blob into lines, require the two `---`/`+++` header lines (an
empty diff applies as the identity), and run the hunks in order. -/
def applyPatch (patch oldText : String) : Option String :=
  match pySplitlinesKeepends patch with
  | [] => some oldText
  | h1 :: h2 :: rest =>
    if "--- ".data.isPrefixOf h1.data ∧ "+++ ".data.isPrefixOf h2.data then
      match applyHunksAux (pySplitlinesKeepends oldText) (rest.length + 1) rest 0 [] with
      | some lines => some (concatStrings lines)
      | none => none
    else none
  | _ => none

/-- A text line in the `\n` convention: content free of line-break
characters, terminated by a newline. -/
def wellLine (l : List Char) : Prop :=
  ∃ content, l = content ++ ['\n'] ∧ ∀ c ∈ content, isLineBreak c = false

/-- A text all of whose lines are `\n`-terminated: one consistent
line-ending convention with a final newline — the formalization of the
claim's "differing only in content, not line-ending convention"
caveat. -/
def newlineTerminated (s : String) : Prop :=
  ∃ lines : List (List Char), s.data = lines.flatten ∧ ∀ l ∈ lines, wellLine l


/-- The lines `a[i..i+k)` and `b[j..j+k)` exist and agree pairwise. -/
def matchRun (a b : List String) (i j k : Nat) : Prop :=
  ∀ t, t < k → ∃ x, a.get? (i + t) = some x ∧ b.get? (j + t) = some x

/-- A candidate triple of `find_longest_match` is a genuine matching
block inside the window `[alo, ahi) × [blo, bhi)`. -/
def validBest (a b : List String) (alo ahi blo bhi : Nat)
    (m : Nat × Nat × Nat) : Prop :=
  alo ≤ m.1 ∧ m.1 + m.2.2 ≤ ahi ∧ blo ≤ m.2.1 ∧ m.2.1 + m.2.2 ≤ bhi ∧
  matchRun a b m.1 m.2.1 m.2.2

/-- Soundness of a `j2len` row: every non-zero entry `f j` describes a
matching run ending at `(iNext - 1, j)` that stays inside the window. -/
def j2lenInv (a b : List String) (alo blo bhi iNext : Nat) (f : Nat → Nat) : Prop :=
  ∀ j, f j ≠ 0 →
    blo ≤ j ∧ j < bhi ∧ alo + f j ≤ iNext ∧ blo + f j ≤ j + 1 ∧
    matchRun a b (iNext - f j) (j + 1 - f j) (f j)

/-- An ascending list of genuine matching blocks between the given lower
and upper corners. -/
def blocksChain (a b : List String) :
    Nat → Nat → List (Nat × Nat × Nat) → Nat → Nat → Prop
  | lo1, lo2, [], hi1, hi2 => lo1 ≤ hi1 ∧ lo2 ≤ hi2
  | lo1, lo2, (i, j, k) :: rest, hi1, hi2 =>
    lo1 ≤ i ∧ lo2 ≤ j ∧ matchRun a b i j k ∧
      blocksChain a b (i + k) (j + k) rest hi1 hi2

/-- Well-formedness of one opcode: ordered in-bounds ranges, with `equal`
opcodes relating ranges of the same size whose lines agree. -/
def opcodeOk (a b : List String) (op : Opcode) : Prop :=
  op.a1 ≤ op.a2 ∧ op.b1 ≤ op.b2 ∧ op.a2 ≤ a.length ∧ op.b2 ≤ b.length ∧
  (op.tag = OpTag.del → op.b1 = op.b2) ∧
  (op.tag = OpTag.ins → op.a1 = op.a2) ∧
  (op.tag = OpTag.eq →
    op.a2 - op.a1 = op.b2 - op.b1 ∧ matchRun a b op.a1 op.b1 (op.a2 - op.a1))

/-- A gapless chain of well-formed opcodes from `(i, j)` to `(e1, e2)`. -/
def opsChain (a b : List String) :
    Nat → Nat → List Opcode → Nat → Nat → Prop
  | i, j, [], e1, e2 => i = e1 ∧ j = e2
  | i, j, op :: rest, e1, e2 =>
    op.a1 = i ∧ op.b1 = j ∧ opcodeOk a b op ∧ opsChain a b op.a2 op.b2 rest e1 e2

/-- The hunk groups seen from position `(i, j)`: before each group the
omitted region of `a` and `b` agrees line for line, each group is a
gapless opcode chain, and after the last group the remainders agree. -/
def groupsChain (a b : List String) : Nat → Nat → List (List Opcode) → Prop
  | i, j, [] =>
    i ≤ a.length ∧ j ≤ b.length ∧ a.length - i = b.length - j ∧
      matchRun a b i j (a.length - i)
  | i, j, g :: gs =>
    ∃ s1 t1 e1 e2, g ≠ [] ∧ opsChain a b s1 t1 g e1 e2 ∧
      i ≤ s1 ∧ j ≤ t1 ∧ s1 - i = t1 - j ∧ matchRun a b i j (s1 - i) ∧
      groupsChain a b e1 e2 gs


/-- A constant analyzer outcome used by concrete instantiations: success
with two findings. -/
def sampleRun : String → PoutineResult :=
  fun _ => ⟨true, none, 2, Json.arr [], ""⟩

/-- A concrete commit hit with a predecessor. -/
def sampleCommit : CommitInfo :=
  ⟨"o", "r", "wf.yml", "sha1", "2024", [], "msg", "raw/sha1.yml",
    some "sha0", none⟩

/-- The same hit at the oldest index of its history: no predecessor. -/
def sampleCommitNoPrev : CommitInfo :=
  ⟨"o", "r", "wf.yml", "sha1", "2024", [], "msg", "raw/sha1.yml",
    none, none⟩

/-- The comparison record `compare_before_after` produces from `sampleRun`
and `sampleCommit`: both sides report two findings, so no reduction. -/
def sampleRes : ComparisonResult :=
  ⟨sampleCommit, ⟨true, none, 2, Json.arr [], ""⟩,
    ⟨true, none, 2, Json.arr [], ""⟩, false, 2, 2, 0, []⟩

/-- C1: every `ComparisonResult` produced by `compare_before_after` has
`weaknesses_reduced` true iff both analyses succeeded and
`reduction_count = before_count - after_count > 0`; and when either
analysis failed, `weaknesses_reduced` is false and `reduction_count`
is `0`. -/
theorem c1_weaknesses_reduced_invariant (run : String → PoutineResult)
    (pyStr : Json → String) (dataRoot : String) (commit : CommitInfo)
    (res : ComparisonResult)
    (h : compareBeforeAfter run pyStr dataRoot commit = Except.ok res) :
    (res.weaknesses_reduced = true ↔
      (res.before_result.success = true ∧ res.after_result.success = true ∧
        res.reduction_count = (res.before_count : Int) - (res.after_count : Int) ∧
        0 < res.reduction_count)) ∧
    ((res.before_result.success = false ∨ res.after_result.success = false) →
      res.weaknesses_reduced = false ∧ res.reduction_count = 0) := by
  cases hp : commit.prev_sha with
  | none => simp [compareBeforeAfter, hp] at h
  | some prev =>
    simp only [compareBeforeAfter, hp, Except.ok.injEq] at h
    subst h
    by_cases hb :
        (run (dataRoot ++ "/" ++ commit.snapshot_relpath.replace commit.commit_sha prev)).success
          && (run (dataRoot ++ "/" ++ commit.snapshot_relpath)).success
    · rcases Bool.and_eq_true .. |>.mp hb with ⟨h1, h2⟩
      simp [hb, h1, h2, decide_eq_true_iff]
    · rcases Bool.and_eq_false_iff.mp (Bool.eq_false_iff.mpr hb) with h1 | h1 <;>
        simp [hb, h1]

/-- Witness for C1: the invariant applied to a fully concrete commit and
analyzer outcome. -/
theorem c1_weaknesses_reduced_invariant_witness :
    compareBeforeAfter sampleRun (fun _ => "") "data" sampleCommit =
        Except.ok sampleRes ∧
    ((sampleRes.weaknesses_reduced = true ↔
        (sampleRes.before_result.success = true ∧
          sampleRes.after_result.success = true ∧
          sampleRes.reduction_count =
            (sampleRes.before_count : Int) - (sampleRes.after_count : Int) ∧
          0 < sampleRes.reduction_count)) ∧
      ((sampleRes.before_result.success = false ∨
          sampleRes.after_result.success = false) →
        sampleRes.weaknesses_reduced = false ∧ sampleRes.reduction_count = 0)) :=
  ⟨rfl,
    c1_weaknesses_reduced_invariant sampleRun (fun _ => "") "data"
      sampleCommit sampleRes rfl⟩

/-- C10: a hit whose `prev_sha` is `None` makes `compare_before_after`
raise a `TypeError` while computing the before-file path instead of
returning a `ComparisonResult`; the batch loop consequently appends
nothing to the result log for it and survives only through its catch-all
per-hit handler, leaving state and log unchanged. -/
theorem c10_none_prev_sha_raises (run : String → PoutineResult)
    (pyStr : Json → String) (dataRoot : String)
    (serialize : ComparisonResult → String) (st : BatchState) (c : CommitInfo)
    (h : c.prev_sha = none) :
    compareBeforeAfter run pyStr dataRoot c =
      Except.error "TypeError: replace() argument 2 must be str" ∧
    processHit (compareBeforeAfter run pyStr dataRoot) serialize st c = st := by
  constructor
  · simp [compareBeforeAfter, h]
  · simp [processHit, compareBeforeAfter, h]

/-- Witness for C10: the oldest-history commit `sampleCommitNoPrev`. -/
theorem c10_none_prev_sha_raises_witness :
    sampleCommitNoPrev.prev_sha = none ∧
    (compareBeforeAfter sampleRun (fun _ => "") "data" sampleCommitNoPrev =
        Except.error "TypeError: replace() argument 2 must be str" ∧
      processHit (compareBeforeAfter sampleRun (fun _ => "") "data")
          (fun _ => "x") ⟨⟨0, none⟩, []⟩ sampleCommitNoPrev = ⟨⟨0, none⟩, []⟩) :=
  ⟨rfl,
    c10_none_prev_sha_raises sampleRun (fun _ => "") "data" (fun _ => "x")
      ⟨⟨0, none⟩, []⟩ sampleCommitNoPrev rfl⟩

/-- After reconciliation the progress counter equals the true number of
log entries. -/
theorem startupReconcile_count (p : Progress) (log : List String) :
    (startupReconcile p log).processed_count = countActualResults log := by
  unfold startupReconcile
  by_cases h : p.processed_count = countActualResults log <;> simp [h]

/-- C2: on orchestrator start, for any persisted progress record and any
result log, the progress counter is corrected to the number of entries in
the log before any new hit is processed (the corrected record is the one
persisted), and the log itself is never altered to match the counter. -/
theorem c2_progress_self_heal (resume : Bool) (p : Progress) (log : List String) :
    (batchStartup resume p log).progress.processed_count =
      countActualResults log ∧
    (batchStartup resume p log).log = log := by
  refine ⟨?_, rfl⟩
  unfold batchStartup
  by_cases hr : resume = true
  · simp [hr, startupReconcile_count]
  · have hr2 : resume = false := by simpa using hr
    by_cases h0 : countActualResults log = 0
    · simp [hr2, startupReconcile_count, h0]
    · simp [hr2, startupReconcile_count, h0]

/-- After startup the in-memory counter equals the true log count. -/
theorem batchStartup_count (resume : Bool) (p : Progress) (log : List String) :
    (batchStartup resume p log).progress.processed_count =
      countActualResults log := by
  unfold batchStartup
  by_cases hr : resume = true
  · simp [hr, startupReconcile_count]
  · have hr2 : resume = false := by simpa using hr
    by_cases h0 : countActualResults log = 0
    · simp [hr2, startupReconcile_count, h0]
    · simp [hr2, startupReconcile_count, h0]

/-- A reconciled progress record is left unchanged by reconciliation. -/
theorem startupReconcile_eq_self (p : Progress) (log : List String)
    (h : p.processed_count = countActualResults log) :
    startupReconcile p log = p := by
  simp [startupReconcile, h]

/-- When every comparison succeeds, the per-hit loop appends exactly one
serialized result per hit, in input order. -/
theorem foldl_processHit_log (f : CommitInfo → ComparisonResult)
    (serialize : ComparisonResult → String) (todo : List CommitInfo)
    (st : BatchState) :
    (todo.foldl (processHit (fun c => Except.ok (f c)) serialize) st).log =
      st.log ++ todo.map (fun c => serialize (f c)) := by
  induction todo generalizing st with
  | nil => simp
  | cons c cs ih => simp [List.foldl_cons, ih, processHit]

/-- The loop maintains the counter-equals-log-count invariant. -/
theorem foldl_processHit_count (compare : CommitInfo → Except String ComparisonResult)
    (serialize : ComparisonResult → String) (todo : List CommitInfo)
    (st : BatchState)
    (h : st.progress.processed_count = countActualResults st.log) :
    (todo.foldl (processHit compare serialize) st).progress.processed_count =
      countActualResults (todo.foldl (processHit compare serialize) st).log := by
  induction todo generalizing st with
  | nil => exact h
  | cons c cs ih =>
    rw [List.foldl_cons]
    apply ih
    unfold processHit
    cases compare c with
    | ok r => rfl
    | error e => exact h

/-- The counter persisted at the end of a run equals the log count. -/
theorem runBatch_count (compare : CommitInfo → Except String ComparisonResult)
    (serialize : ComparisonResult → String) (resume : Bool)
    (allHits : List CommitInfo) (limit : Option Nat) (p : Progress)
    (log : List String) :
    (runBatch compare serialize resume allHits limit p log).progress.processed_count =
      countActualResults (runBatch compare serialize resume allHits limit p log).log := by
  unfold runBatch
  exact foldl_processHit_count _ _ _ _ (batchStartup_count resume p log)

/-- Counting non-blank lines distributes over log concatenation. -/
theorem countActualResults_append (a b : List String) :
    countActualResults (a ++ b) = countActualResults a + countActualResults b := by
  simp [countActualResults, List.filter_append]

/-- A log extension made of non-blank lines is counted in full. -/
theorem countActualResults_all_nonblank (xs : List String)
    (h : ∀ x ∈ xs, pyStrip x ≠ "") : countActualResults xs = xs.length := by
  unfold countActualResults
  rw [List.filter_eq_self.mpr]
  intro a ha
  simpa using h a ha

/-- C3: with no `--limit`, one orchestrator run processes exactly the
suffix `all_hits[processed_count:]` in order, appending one serialized
result per hit to the log; and re-invoking a completed run with
`--resume` on the same output state processes zero additional hits and
returns the state — in particular the result log — unchanged. -/
theorem c3_resume_idempotence (f : CommitInfo → ComparisonResult)
    (serialize : ComparisonResult → String) (resume : Bool)
    (allHits : List CommitInfo) (p : Progress) (log : List String)
    (hs : ∀ r, pyStrip (serialize r) ≠ "") :
    (runBatch (fun c => Except.ok (f c)) serialize resume allHits none p log).log =
      log ++
        (allHits.drop (countActualResults log)).map (fun c => serialize (f c)) ∧
    runBatch (fun c => Except.ok (f c)) serialize true allHits none
        (runBatch (fun c => Except.ok (f c)) serialize resume allHits none p log).progress
        (runBatch (fun c => Except.ok (f c)) serialize resume allHits none p log).log =
      runBatch (fun c => Except.ok (f c)) serialize resume allHits none p log := by
  have hlog1 :
      (runBatch (fun c => Except.ok (f c)) serialize resume allHits none p log).log =
        log ++
          (allHits.drop (countActualResults log)).map (fun c => serialize (f c)) := by
    unfold runBatch
    rw [foldl_processHit_log]
    rw [commitsToProcess, batchStartup_count]
    rfl
  refine ⟨hlog1, ?_⟩
  have hcnt :=
    runBatch_count (fun c => Except.ok (f c)) serialize resume allHits none p log
  have hmap :
      countActualResults
          ((allHits.drop (countActualResults log)).map (fun c => serialize (f c))) =
        ((allHits.drop (countActualResults log)).map (fun c => serialize (f c))).length := by
    apply countActualResults_all_nonblank
    intro x hx
    rcases List.mem_map.mp hx with ⟨c, _, hc⟩
    rw [← hc]
    exact hs (f c)
  have hlen :
      allHits.length ≤
        countActualResults
          (runBatch (fun c => Except.ok (f c)) serialize resume allHits none p log).log := by
    rw [hlog1, countActualResults_append, hmap, List.length_map, List.length_drop]
    omega
  have hdrop :
      allHits.drop
        (countActualResults
          (runBatch (fun c => Except.ok (f c)) serialize resume allHits none p log).log) =
        [] :=
    List.drop_eq_nil_of_le hlen
  conv_lhs => rw [runBatch]
  unfold batchStartup
  rw [startupReconcile_eq_self _ _ hcnt]
  simp only [commitsToProcess, Bool.not_true, Bool.false_and,
    Bool.false_eq_true, if_false, List.foldl_nil, hcnt, hdrop]

/-- Witness for C3: a one-hit input processed from an empty log, then
re-invoked with `--resume`. -/
theorem c3_resume_idempotence_witness :
    (∀ r : ComparisonResult, pyStrip ((fun _ : ComparisonResult => "x") r) ≠ "") ∧
    ((runBatch (fun c => Except.ok ((fun _ : CommitInfo => sampleRes) c))
          (fun _ : ComparisonResult => "x") false [sampleCommit] none
          ⟨0, none⟩ []).log =
        [] ++
          (([sampleCommit].drop (countActualResults [])).map
            (fun c => (fun _ : ComparisonResult => "x")
              ((fun _ : CommitInfo => sampleRes) c))) ∧
      runBatch (fun c => Except.ok ((fun _ : CommitInfo => sampleRes) c))
          (fun _ : ComparisonResult => "x") true [sampleCommit] none
          (runBatch (fun c => Except.ok ((fun _ : CommitInfo => sampleRes) c))
            (fun _ : ComparisonResult => "x") false [sampleCommit] none
            ⟨0, none⟩ []).progress
          (runBatch (fun c => Except.ok ((fun _ : CommitInfo => sampleRes) c))
            (fun _ : ComparisonResult => "x") false [sampleCommit] none
            ⟨0, none⟩ []).log =
        runBatch (fun c => Except.ok ((fun _ : CommitInfo => sampleRes) c))
          (fun _ : ComparisonResult => "x") false [sampleCommit] none
          ⟨0, none⟩ []) :=
  ⟨fun r => show pyStrip "x" ≠ "" by decide,
    c3_resume_idempotence (fun _ => sampleRes) (fun _ => "x") false
      [sampleCommit] ⟨0, none⟩ [] (fun r => show pyStrip "x" ≠ "" by decide)⟩

/-- C4: when one workflow index document fails to parse, the scan loop
does continue and records an `{org, repo, workflow_path: null,
commit_sha: null, error}` entry alongside the successful hits (which also
reaches the `hits.jsonl` stream) — but the run does not complete: the
error entry carries an `error` key that is not among the CSV fieldnames,
so `csv.DictWriter.writerow` raises `ValueError` while writing the final
CSV report. -/
theorem c4_error_entry_crashes_csv_report :
    scanWorkflows
        [("flutter", "tools_metadata",
            Except.error "Expecting value: line 1 column 1 (char 0)"),
          ("o2", "r2", Except.ok [sampleCommit])] =
      [ScanEntry.failure "flutter" "tools_metadata"
          "Expecting value: line 1 column 1 (char 0)",
        ScanEntry.hit sampleCommit] ∧
    (scanWorkflows
        [("flutter", "tools_metadata",
            Except.error "Expecting value: line 1 column 1 (char 0)"),
          ("o2", "r2", Except.ok [sampleCommit])]).map entryToJson =
      [Json.obj
          [("org", Json.str "flutter"), ("repo", Json.str "tools_metadata"),
            ("workflow_path", Json.null), ("commit_sha", Json.null),
            ("error", Json.str "Expecting value: line 1 column 1 (char 0)")],
        entryToJson (ScanEntry.hit sampleCommit)] ∧
    scanAndReport
        [("flutter", "tools_metadata",
            Except.error "Expecting value: line 1 column 1 (char 0)"),
          ("o2", "r2", Except.ok [sampleCommit])] =
      Except.error "ValueError: dict contains fields not in fieldnames" := by
  refine ⟨rfl, rfl, rfl⟩

/-- Counterexample to C5: the claimed single exit-code-independent policy
fails for the ephemeral-docker variant.  On a completed process with exit
code 1 whose stdout is unparsable JSON containing two `Finding:` markers,
the claimed policy demands `findings_count = 2`; the persistent-worker
variant indeed reports 2, but `poutine_docker.py` ignores stdout because
the exit code is non-zero and reports success with zero findings. -/
theorem c5_parse_policy_counterexample :
    countSubstr "Finding:" "Finding: a\nFinding: b" = 2 ∧
    jsonLoads "Finding: a\nFinding: b" = none ∧
    (optimizedRunParse ⟨1, "Finding: a\nFinding: b", ""⟩).findings_count = 2 ∧
    (ephemeralRunParse ⟨1, "Finding: a\nFinding: b", ""⟩).findings_count = 0 ∧
    (ephemeralRunParse ⟨1, "Finding: a\nFinding: b", ""⟩).success = true :=
  ⟨rfl, rfl, rfl, rfl, rfl⟩

/-- C5 (amended): the stated parsing policy — a JSON list is the findings
and its length the count, a JSON object is read under its `findings` key,
and a JSON parse failure yields `success=true`, empty findings and a
`Finding:` marker count — holds for the persistent-worker variant
regardless of the exit code (its result never depends on `returncode`);
the ephemeral-docker and native variants apply that same policy only when
the exit code is 0, and with a non-zero exit code ignore stdout entirely,
returning `success=true` with zero findings. -/
theorem c5_parse_policy_amended :
    (∀ r : ProcResult, ∀ k : Int,
      optimizedRunParse { r with returncode := k } = optimizedRunParse r) ∧
    (∀ r : ProcResult, r.returncode = 0 →
      ephemeralRunParse r = optimizedRunParse r) ∧
    (∀ r : ProcResult, r.returncode ≠ 0 →
      ephemeralRunParse r =
        ⟨true, none, 0, Json.arr [], r.stdout ++ "\n" ++ r.stderr⟩) ∧
    (∀ r : ProcResult, ∀ xs : List Json,
      jsonLoads r.stdout = some (Json.arr xs) →
      (optimizedRunParse r).findings = Json.arr xs ∧
      (optimizedRunParse r).findings_count = xs.length ∧
      (optimizedRunParse r).success = true) ∧
    (∀ r : ProcResult, ∀ ms : List (String × Json), ∀ n : Nat,
      jsonLoads r.stdout = some (Json.obj ms) →
      pyLen (pyDictGet ms "findings" (Json.arr [])) = some n →
      (optimizedRunParse r).findings = pyDictGet ms "findings" (Json.arr []) ∧
      (optimizedRunParse r).findings_count = n) ∧
    (∀ r : ProcResult, r.stdout ≠ "" → jsonLoads r.stdout = none →
      (optimizedRunParse r).success = true ∧
      (optimizedRunParse r).findings = Json.arr [] ∧
      (optimizedRunParse r).findings_count = countSubstr "Finding:" r.stdout) := by
  have hempty : ∀ (r : ProcResult), r.stdout = "" → jsonLoads r.stdout = none := by
    intro r h
    rw [h]
    rfl
  refine ⟨?_, ?_, ?_, ?_, ?_, ?_⟩
  · intro r k
    rfl
  · intro r h
    simp [ephemeralRunParse, optimizedRunParse, h]
  · intro r h
    simp [ephemeralRunParse, h]
  · intro r xs h
    by_cases he : r.stdout = ""
    · rw [hempty r he] at h
      exact absurd h (by simp)
    · simp [optimizedRunParse, he, parsePoutineStdout, h]
  · intro r ms n h hl
    by_cases he : r.stdout = ""
    · rw [hempty r he] at h
      exact absurd h (by simp)
    · simp [optimizedRunParse, he, parsePoutineStdout, h, hl]
  · intro r he h
    simp [optimizedRunParse, he, parsePoutineStdout, h]

/-- Witness for C5 (amended), at concrete process results: a parsed list,
a non-zero exit code that suppresses parsing in the ephemeral variant, an
object with a `findings` key, and a textual fallback. -/
theorem c5_parse_policy_amended_witness :
    (optimizedRunParse ⟨0, "[null]", "e"⟩ =
      optimizedRunParse ⟨7, "[null]", "e"⟩) ∧
    ((0 : Int) = 0 ∧
      ephemeralRunParse ⟨0, "[null]", ""⟩ = optimizedRunParse ⟨0, "[null]", ""⟩) ∧
    ((2 : Int) ≠ 0 ∧
      ephemeralRunParse ⟨2, "[null]", "x"⟩ =
        ⟨true, none, 0, Json.arr [], "[null]" ++ "\n" ++ "x"⟩) ∧
    (jsonLoads "[null]" = some (Json.arr [Json.null]) ∧
      (optimizedRunParse ⟨0, "[null]", ""⟩).findings = Json.arr [Json.null] ∧
      (optimizedRunParse ⟨0, "[null]", ""⟩).findings_count = [Json.null].length ∧
      (optimizedRunParse ⟨0, "[null]", ""⟩).success = true) ∧
    ((optimizedRunParse ⟨0, "\x7b\"findings\": [null, true]\x7d", ""⟩).findings =
        pyDictGet [("findings", Json.arr [Json.null, Json.bool true])]
          "findings" (Json.arr []) ∧
      (optimizedRunParse ⟨0, "\x7b\"findings\": [null, true]\x7d", ""⟩).findings_count = 2) ∧
    ("Finding: x" ≠ "" ∧ jsonLoads "Finding: x" = none ∧
      (optimizedRunParse ⟨0, "Finding: x", ""⟩).success = true ∧
      (optimizedRunParse ⟨0, "Finding: x", ""⟩).findings = Json.arr [] ∧
      (optimizedRunParse ⟨0, "Finding: x", ""⟩).findings_count =
        countSubstr "Finding:" "Finding: x") :=
  ⟨(c5_parse_policy_amended.1 ⟨0, "[null]", "e"⟩ 7).symm,
    ⟨rfl, c5_parse_policy_amended.2.1 ⟨0, "[null]", ""⟩ rfl⟩,
    ⟨by decide, c5_parse_policy_amended.2.2.1 ⟨2, "[null]", "x"⟩ (by decide)⟩,
    ⟨rfl, c5_parse_policy_amended.2.2.2.1 ⟨0, "[null]", ""⟩ [Json.null] rfl⟩,
    c5_parse_policy_amended.2.2.2.2.1 ⟨0, "\x7b\"findings\": [null, true]\x7d", ""⟩
      [("findings", Json.arr [Json.null, Json.bool true])] 2 rfl rfl,
    ⟨by decide, rfl,
      c5_parse_policy_amended.2.2.2.2.2 ⟨0, "Finding: x", ""⟩ (by decide) rfl⟩⟩

/-- Decoding the UTF-8 encoding of one character consumes exactly its
byte sequence and recovers its scalar value. -/
theorem utf8EncodeChar_decode (c : Char) (rest : List Nat) :
    ∃ b t, utf8EncodeChar c = b :: t ∧
      utf8DecodeOne b (t ++ rest) = some (c.toNat, rest) := by
  have hv : Nat.isValidChar c.toNat := c.valid
  unfold Nat.isValidChar at hv
  by_cases h1 : c.toNat < 0x80
  · refine ⟨c.toNat, [], ?_, ?_⟩
    · simp [utf8EncodeChar, h1]
    · simp [utf8DecodeOne, h1]
  · by_cases h2 : c.toNat < 0x800
    · refine ⟨0xC0 + c.toNat / 0x40, [0x80 + c.toNat % 0x40], ?_, ?_⟩
      · simp [utf8EncodeChar, h1, h2]
      · unfold utf8DecodeOne
        rw [if_neg (by omega)]
        simp only [List.cons_append]
        rw [if_pos (by simp [utf8Cont]; omega)]
        congr 2
        omega
    · by_cases h3 : c.toNat < 0x10000
      · refine ⟨0xE0 + c.toNat / 0x1000,
          [0x80 + c.toNat / 0x40 % 0x40, 0x80 + c.toNat % 0x40], ?_, ?_⟩
        · simp [utf8EncodeChar, h1, h2, h3]
        · unfold utf8DecodeOne
          rw [if_neg (by omega)]
          simp only [List.cons_append]
          rw [if_neg (by simp [utf8Cont]; omega)]
          rw [if_pos (by simp [utf8Cont]; omega)]
          congr 2
          omega
      · refine ⟨0xF0 + c.toNat / 0x40000,
          [0x80 + c.toNat / 0x1000 % 0x40, 0x80 + c.toNat / 0x40 % 0x40,
            0x80 + c.toNat % 0x40], ?_, ?_⟩
        · simp [utf8EncodeChar, h1, h2, h3]
        · unfold utf8DecodeOne
          rw [if_neg (by omega)]
          simp only [List.cons_append]
          rw [if_neg (by simp [utf8Cont]; omega)]
          rw [if_neg (by simp [utf8Cont]; omega)]
          rw [if_pos (by simp [utf8Cont]; omega)]
          congr 2
          omega

/-- With sufficient fuel, the ignore-mode decoder inverts the UTF-8
encoder. -/
theorem decodeUtf8IgnoreAux_encode (cs : List Char) :
    ∀ fuel, (utf8Encode cs).length ≤ fuel →
      decodeUtf8IgnoreAux fuel (utf8Encode cs) = cs := by
  induction cs with
  | nil =>
    intro fuel _
    cases fuel <;> rfl
  | cons c cs ih =>
    intro fuel hf
    obtain ⟨b, t, hbt, hdec⟩ := utf8EncodeChar_decode c (utf8Encode cs)
    have henc : utf8Encode (c :: cs) = b :: (t ++ utf8Encode cs) := by
      simp [utf8Encode, hbt]
    rw [henc] at hf ⊢
    cases fuel with
    | zero => simp at hf
    | succ fuel =>
      unfold decodeUtf8IgnoreAux
      rw [hdec]
      simp only []
      rw [Char.ofNat_toNat]
      congr 1
      apply ih
      simp at hf
      omega

/-- Counterexample to C6: the decode layer of `read_text_maybe_gz` uses
`errors="ignore"`, so the corrupt byte `0xFF` inside `A <FF> B` is
silently dropped — the returned string is `"AB"` and contains no
replacement character `U+FFFD`, contrary to the claim that corrupt byte
sequences degrade to replacement characters. -/
theorem c6_decode_replacement_counterexample :
    readSnapshotText [0x41, 0xFF, 0x42] = ['A', 'B'] ∧
    Char.ofNat 0xFFFD ∉ readSnapshotText [0x41, 0xFF, 0x42] :=
  ⟨rfl, by decide⟩

/-- C6 (amended): the text-read layer never raises — decoding is a total
function of the byte sequence — and it decodes as UTF-8 with
`errors="ignore"`: every valid encoding decodes to exactly its characters,
while corrupt byte sequences are silently dropped from the returned
string (not replaced by replacement characters), as the corrupt byte in
`A <FF> B` shows. -/
theorem c6_decode_ignore_amended :
    (∀ cs : List Char, readSnapshotText (utf8Encode cs) = cs) ∧
    readSnapshotText [0x41, 0xFF, 0x42] = ['A', 'B'] := by
  refine ⟨?_, rfl⟩
  intro cs
  exact decodeUtf8IgnoreAux_encode cs _ le_rfl

/-- Counterexample to C7: the pipe-joined CSV cell for `matchedKeywords`
is ambiguous — the lists `["a", "b"]` and `["a|b"]` (keyword patterns
containing `|`, as the default regex list does) write identical cells —
so no loader function, in particular not the `eval`-based
`load_commits_from_csv`, can recover the original list from the cell for
both hits. -/
theorem c7_keywords_roundtrip_counterexample :
    encodeKeywords ["a", "b"] = encodeKeywords ["a|b"] ∧
    ["a", "b"] ≠ ["a|b"] ∧
    ¬ ∃ load : String → List String,
        load (encodeKeywords ["a", "b"]) = ["a", "b"] ∧
        load (encodeKeywords ["a|b"]) = ["a|b"] := by
  refine ⟨rfl, by decide, ?_⟩
  rintro ⟨load, h1, h2⟩
  rw [show encodeKeywords ["a", "b"] = encodeKeywords ["a|b"] from rfl] at h1
  exact absurd (h1.symm.trans h2) (by decide)

/-- C7 (amended): the keyword-cell encoding is not injective, so the
round trip through the CSV cell can only hold for collision-free keyword
lists: any loader that recovers `["a", "b"]` from its cell necessarily
fails to recover `["a|b"]` from its (identical) cell. -/
theorem c7_keywords_roundtrip_amended (load : String → List String)
    (h : load (encodeKeywords ["a", "b"]) = ["a", "b"]) :
    load (encodeKeywords ["a|b"]) ≠ ["a|b"] := by
  intro h2
  rw [show encodeKeywords ["a", "b"] = encodeKeywords ["a|b"] from rfl] at h
  exact absurd (h.symm.trans h2) (by decide)

/-- Witness for C7 (amended): the constant loader that answers
`["a", "b"]` recovers the first list but necessarily not the second. -/
theorem c7_keywords_roundtrip_amended_witness :
    ((fun _ : String => ["a", "b"]) (encodeKeywords ["a", "b"]) = ["a", "b"]) ∧
    (fun _ : String => ["a", "b"]) (encodeKeywords ["a|b"]) ≠ ["a|b"] :=
  ⟨rfl, c7_keywords_roundtrip_amended (fun _ => ["a", "b"]) rfl⟩

/-- A separator split is never the empty group list. -/
theorem splitSeps_ne_nil (sep : Char → Bool) (cs : List Char) :
    splitSeps sep cs ≠ [] := by
  induction cs with
  | nil => simp [splitSeps]
  | cons c cs ih =>
    unfold splitSeps
    cases hs : splitSeps sep cs with
    | nil => simp
    | cons g gs => by_cases h : sep c <;> simp [h]

/-- On a character list without forward slashes, splitting at Windows
separators agrees with splitting the backslash-replaced list at POSIX
separators. -/
theorem splitSeps_backslash_to_slash (cs : List Char) (h : '/' ∉ cs) :
    splitSeps winSep cs =
      splitSeps posixSep (cs.map (fun c => if c = '\\' then '/' else c)) := by
  induction cs with
  | nil => rfl
  | cons c cs ih =>
    have h1 : c ≠ '/' := fun hc => h (by simp [hc])
    have h2 : '/' ∉ cs := fun hc => h (by simp [hc])
    have ih2 := ih h2
    unfold splitSeps
    simp only [List.map_cons]
    rw [← ih2]
    cases hs : splitSeps winSep cs with
    | nil => exact absurd hs (splitSeps_ne_nil _ _)
    | cons g gs =>
      by_cases hc : c = '\\'
      · simp [hc, winSep, posixSep]
      · simp [winSep, posixSep, hc, h1]

/-- Counterexample to C8: `"a\b/c"` and `"a/b/c"` are equal up to
replacing every backslash by a forward slash, yet they resolve to
different paths under the dataset root — the first contains a forward
slash, so it is parsed POSIX-style and `a\b` stays one component. -/
theorem c8_separator_equivalence_counterexample :
    backslashToSlash "a\\b/c" = "a/b/c" ∧
    resolveSnapshotPath ["data"] "a\\b/c" ≠ resolveSnapshotPath ["data"] "a/b/c" := by
  refine ⟨rfl, ?_⟩
  decide

/-- C8 (amended): the flavour detection rule is exactly as stated (a
backslash and no forward slash means Windows-style), and the
separator-replacement equivalence holds for precisely such strings:
resolving a backslash-only relative path and its forward-slash
replacement under the same dataset root yields the same path.  (A string
mixing both separators is parsed POSIX-style, where backslashes are
ordinary characters, and the equivalence fails — see the
counterexample.) -/
theorem c8_separator_equivalence_amended (root : List String) (s : String)
    (hb : '\\' ∈ s.data) (hs : '/' ∉ s.data) :
    resolveSnapshotPath root s = resolveSnapshotPath root (backslashToSlash s) := by
  unfold resolveSnapshotPath normalizeRelpath
  congr 1
  have hb2 : s.data.contains '\\' = true := by
    simpa [List.elem_iff] using hb
  have hs2 : s.data.contains '/' = false := by
    simp only [← Bool.not_eq_true, List.elem_iff]
    simpa using hs
  have hnb : (backslashToSlash s).data.contains '\\' = false := by
    simp only [← Bool.not_eq_true, List.elem_iff, backslashToSlash]
    intro hmem
    rcases List.mem_map.mp hmem with ⟨c, _, hc⟩
    by_cases h : c = '\\' <;> simp [h] at hc
  rw [hb2, hs2, hnb]
  simp only [Bool.true_and, Bool.not_false, Bool.false_and, if_true, if_false]
  unfold pathParts
  rw [splitSeps_backslash_to_slash s.data hs]
  rfl

/-- Witness for C8 (amended): a concrete Windows-style relative path and
its forward-slash form resolve identically. -/
theorem c8_separator_equivalence_amended_witness :
    '\\' ∈ "raw\\org\\wf.yml".data ∧ '/' ∉ "raw\\org\\wf.yml".data ∧
    resolveSnapshotPath ["data"] "raw\\org\\wf.yml" =
      resolveSnapshotPath ["data"] (backslashToSlash "raw\\org\\wf.yml") :=
  ⟨by decide, by decide,
    c8_separator_equivalence_amended ["data"] "raw\\org\\wf.yml"
      (by decide) (by decide)⟩

/-- Counterexample to C9: `old = "a\nx"` and `new = "a\ny"` share one
line-ending convention and differ only in content, yet their final lines
are unterminated, so keep-line-terminators has nothing to keep: the
generated blob fuses the deletion and addition into the single line
`-x+y`, and applying the blob as a patch to `old` fails instead of
reproducing `new`. -/
theorem c9_diff_roundtrip_counterexample :
    unifiedDiffText "a\nx" "a\ny" "f" "t" =
      "--- f\n+++ t\n@@ -1,2 +1,2 @@\n a\n-x+y" ∧
    applyPatch (unifiedDiffText "a\nx" "a\ny" "f" "t") "a\nx" = none :=
  ⟨rfl, rfl⟩

theorem matchRun_zero (a b : List String) (i j : Nat) : matchRun a b i j 0 :=
  fun t ht => absurd ht (Nat.not_lt_zero t)

theorem matchRun_mono {a b : List String} {i j k k' : Nat}
    (h : matchRun a b i j k) (hk : k' ≤ k) : matchRun a b i j k' :=
  fun t ht => h t (lt_of_lt_of_le ht hk)

theorem matchRun_shift {a b : List String} {i j k d : Nat}
    (h : matchRun a b i j k) : matchRun a b (i + d) (j + d) (k - d) := by
  intro t ht
  have h2 := h (d + t) (by omega)
  have e1 : i + (d + t) = i + d + t := by omega
  have e2 : j + (d + t) = j + d + t := by omega
  rwa [e1, e2] at h2

theorem matchRun_append {a b : List String} {i j k k' : Nat}
    (h1 : matchRun a b i j k) (h2 : matchRun a b (i + k) (j + k) k') :
    matchRun a b i j (k + k') := by
  intro t ht
  by_cases hc : t < k
  · exact h1 t hc
  · obtain ⟨x, hx1, hx2⟩ := h2 (t - k) (by omega)
    refine ⟨x, ?_, ?_⟩
    · have e1 : i + k + (t - k) = i + t := by omega
      rwa [e1] at hx1
    · have e2 : j + k + (t - k) = j + t := by omega
      rwa [e2] at hx2

theorem matchRun_snoc {a b : List String} {i j k : Nat} {x : String}
    (h : matchRun a b i j k) (ha : a.get? (i + k) = some x)
    (hb : b.get? (j + k) = some x) : matchRun a b i j (k + 1) := by
  apply matchRun_append h
  intro t ht
  have ht0 : t = 0 := by omega
  subst ht0
  exact ⟨x, by simpa using ha, by simpa using hb⟩

theorem flmInner_valid (a b : List String) (alo ahi blo bhi i : Nat) (x : String)
    (hx : a.get? i = some x) (hi1 : alo ≤ i) (hi2 : i < ahi)
    (old : Nat → Nat) (hold : j2lenInv a b alo blo bhi i old) :
    ∀ (js : List Nat) (nj : Nat → Nat) (best : Nat × Nat × Nat),
      (∀ j ∈ js, blo ≤ j ∧ j < bhi ∧ b.get? j = some x) →
      j2lenInv a b alo blo bhi (i + 1) nj →
      validBest a b alo ahi blo bhi best →
      j2lenInv a b alo blo bhi (i + 1) (flmInner i old js nj best).1 ∧
      validBest a b alo ahi blo bhi (flmInner i old js nj best).2 := by
  intro js
  induction js with
  | nil =>
    intro nj best _ hnj hbest
    exact ⟨hnj, hbest⟩
  | cons j js ih =>
    intro nj best hmem hnj hbest
    obtain ⟨hjb, hjbhi, hbj⟩ := hmem j (List.mem_cons_self j js)
    obtain ⟨hk1, hk2, hkrun⟩ :
        alo + ((if j = 0 then 0 else old (j - 1)) + 1) ≤ i + 1 ∧
        blo + ((if j = 0 then 0 else old (j - 1)) + 1) ≤ j + 1 ∧
        matchRun a b (i + 1 - ((if j = 0 then 0 else old (j - 1)) + 1))
          (j + 1 - ((if j = 0 then 0 else old (j - 1)) + 1))
          ((if j = 0 then 0 else old (j - 1)) + 1) := by
      by_cases hz : (if j = 0 then 0 else old (j - 1)) = 0
      · rw [hz]
        refine ⟨by omega, by omega, ?_⟩
        intro t ht
        have ht0 : t = 0 := by omega
        subst ht0
        refine ⟨x, ?_, ?_⟩
        · have e : i + 1 - 1 + 0 = i := by omega
          rwa [e]
        · have e : j + 1 - 1 + 0 = j := by omega
          rwa [e]
      · have hj0 : j ≠ 0 := by
          intro h
          simp [h] at hz
        rw [if_neg hj0] at hz ⊢
        obtain ⟨h1, h2, h3, h4, h5⟩ := hold (j - 1) hz
        refine ⟨by omega, by omega, ?_⟩
        have e1 : i + 1 - (old (j - 1) + 1) = i - old (j - 1) := by omega
        have e2 : j + 1 - (old (j - 1) + 1) = j - old (j - 1) := by omega
        rw [e1, e2]
        have h5' : matchRun a b (i - old (j - 1)) (j - old (j - 1)) (old (j - 1)) := by
          have e5 : j - 1 + 1 - old (j - 1) = j - old (j - 1) := by omega
          rwa [e5] at h5
        apply matchRun_snoc h5'
        · have e : i - old (j - 1) + old (j - 1) = i := by omega
          rwa [e]
        · have e : j - old (j - 1) + old (j - 1) = j := by omega
          rwa [e]
    rw [flmInner]
    apply ih
    · intro j2 hj2
      exact hmem j2 (List.mem_cons_of_mem j hj2)
    · intro j2 hj2
      by_cases hej : j2 = j
      · subst hej
        rw [Function.update_same] at hj2 ⊢
        exact ⟨hjb, hjbhi, hk1, hk2, hkrun⟩
      · rw [Function.update_noteq hej] at hj2 ⊢
        exact hnj j2 hj2
    · by_cases hlt : best.2.2 < (if j = 0 then 0 else old (j - 1)) + 1
      · simp only [hlt, if_true]
        dsimp only [validBest]
        exact ⟨by omega, by omega, by omega, by omega, hkrun⟩
      · simp only [hlt, if_false]
        exact hbest

theorem getD_get? (l : List String) (n : Nat) (h : n < l.length) :
    l.get? n = some (l.getD n "") := by
  rw [List.getD_eq_getElem?_getD, List.get?_eq_getElem?, List.getElem?_eq_getElem h]
  rfl

theorem b2jOf_mem {b : List String} {xv : String} {j : Nat}
    (hj : j ∈ b2jOf b xv) : b.get? j = some xv := by
  simp only [b2jOf] at hj
  split at hj
  · exact absurd hj (List.not_mem_nil j)
  · exact eq_of_beq (List.mem_filter.mp hj).2

theorem flmOuter_valid (a b : List String) (alo ahi blo bhi : Nat)
    (h2 : ahi ≤ a.length) :
    ∀ (steps i : Nat) (j2len : Nat → Nat) (best : Nat × Nat × Nat),
      alo ≤ i → i + steps = ahi →
      j2lenInv a b alo blo bhi i j2len →
      validBest a b alo ahi blo bhi best →
      validBest a b alo ahi blo bhi (flmOuter a b blo bhi steps i j2len best) := by
  intro steps
  induction steps with
  | zero =>
    intro i j2len best _ _ _ hbest
    rw [flmOuter]
    exact hbest
  | succ steps ih =>
    intro i j2len best hi hstep hinv hbest
    rw [flmOuter]
    have hilt : i < a.length := by omega
    have hx : a.get? i = some (a.getD i "") := getD_get? a i hilt
    have hmem : ∀ j ∈ (b2jOf b (a.getD i "")).filter (fun j => blo ≤ j && j < bhi),
        blo ≤ j ∧ j < bhi ∧ b.get? j = some (a.getD i "") := by
      intro j hj
      obtain ⟨hj1, hj2⟩ := List.mem_filter.mp hj
      simp only [Bool.and_eq_true, decide_eq_true_eq] at hj2
      exact ⟨hj2.1, hj2.2, b2jOf_mem hj1⟩
    have hnj0 : j2lenInv a b alo blo bhi (i + 1) (fun _ => 0) :=
      fun j hj => absurd rfl hj
    have hres := flmInner_valid a b alo ahi blo bhi i (a.getD i "") hx hi
      (by omega) j2len hinv
      ((b2jOf b (a.getD i "")).filter (fun j => blo ≤ j && j < bhi))
      (fun _ => 0) best hmem hnj0 hbest
    exact ih (i + 1) _ _ (by omega) (by omega) hres.1 hres.2

theorem flmExtendBack_valid (a b : List String) (alo ahi blo bhi : Nat)
    (h2 : ahi ≤ a.length) (h4 : bhi ≤ b.length) :
    ∀ (fuel : Nat) (best : Nat × Nat × Nat),
      validBest a b alo ahi blo bhi best →
      validBest a b alo ahi blo bhi (flmExtendBack a b alo blo fuel best) := by
  intro fuel
  induction fuel with
  | zero =>
    intro best hbest
    obtain ⟨bi, bj, bk⟩ := best
    rw [flmExtendBack]
    exact hbest
  | succ fuel ih =>
    intro best hbest
    obtain ⟨bi, bj, bk⟩ := best
    rw [flmExtendBack]
    by_cases hg : (alo < bi && blo < bj &&
        a.getD (bi - 1) "" == b.getD (bj - 1) "") = true
    · rw [if_pos hg]
      apply ih
      obtain ⟨hv1, hv2, hv3, hv4, hv5⟩ := hbest
      simp only [Bool.and_eq_true, decide_eq_true_eq] at hg
      obtain ⟨⟨halo, hblo⟩, heqD⟩ := hg
      have heq : a.getD (bi - 1) "" = b.getD (bj - 1) "" := eq_of_beq heqD
      dsimp only [validBest] at hv1 hv2 hv3 hv4 hv5 ⊢
      have hga : a.get? (bi - 1) = some (a.getD (bi - 1) "") :=
        getD_get? a (bi - 1) (by omega)
      have hgb : b.get? (bj - 1) = some (b.getD (bj - 1) "") :=
        getD_get? b (bj - 1) (by omega)
      refine ⟨by omega, by omega, by omega, by omega, ?_⟩
      intro t ht
      by_cases ht0 : t = 0
      · subst ht0
        refine ⟨a.getD (bi - 1) "", by simpa using hga, ?_⟩
        rw [heq]
        simpa using hgb
      · obtain ⟨x, hx1, hx2⟩ := hv5 (t - 1) (by omega)
        refine ⟨x, ?_, ?_⟩
        · have e : bi - 1 + t = bi + (t - 1) := by omega
          rwa [e]
        · have e : bj - 1 + t = bj + (t - 1) := by omega
          rwa [e]
    · rw [if_neg hg]
      exact hbest

theorem flmExtendFwd_valid (a b : List String) (alo ahi blo bhi : Nat)
    (h2 : ahi ≤ a.length) (h4 : bhi ≤ b.length) :
    ∀ (fuel : Nat) (best : Nat × Nat × Nat),
      validBest a b alo ahi blo bhi best →
      validBest a b alo ahi blo bhi (flmExtendFwd a b ahi bhi fuel best) := by
  intro fuel
  induction fuel with
  | zero =>
    intro best hbest
    obtain ⟨bi, bj, bk⟩ := best
    rw [flmExtendFwd]
    exact hbest
  | succ fuel ih =>
    intro best hbest
    obtain ⟨bi, bj, bk⟩ := best
    rw [flmExtendFwd]
    by_cases hg : (bi + bk < ahi && bj + bk < bhi &&
        a.getD (bi + bk) "" == b.getD (bj + bk) "") = true
    · rw [if_pos hg]
      apply ih
      obtain ⟨hv1, hv2, hv3, hv4, hv5⟩ := hbest
      simp only [Bool.and_eq_true, decide_eq_true_eq] at hg
      obtain ⟨⟨hahi, hbhi⟩, heqD⟩ := hg
      have heq : a.getD (bi + bk) "" = b.getD (bj + bk) "" := eq_of_beq heqD
      dsimp only [validBest] at hv1 hv2 hv3 hv4 hv5 ⊢
      have hga : a.get? (bi + bk) = some (a.getD (bi + bk) "") :=
        getD_get? a (bi + bk) (by omega)
      have hgb : b.get? (bj + bk) = some (b.getD (bj + bk) "") :=
        getD_get? b (bj + bk) (by omega)
      refine ⟨by omega, by omega, by omega, by omega, ?_⟩
      apply matchRun_snoc hv5
      · exact hga
      · rw [heq] at hga ⊢
        exact hgb
    · rw [if_neg hg]
      exact hbest

theorem findLongestMatch_valid (a b : List String) (alo ahi blo bhi : Nat)
    (h1 : alo ≤ ahi) (h2 : ahi ≤ a.length) (h3 : blo ≤ bhi) (h4 : bhi ≤ b.length) :
    validBest a b alo ahi blo bhi (findLongestMatch a b alo ahi blo bhi) := by
  unfold findLongestMatch
  apply flmExtendFwd_valid a b alo ahi blo bhi h2 h4
  apply flmExtendBack_valid a b alo ahi blo bhi h2 h4
  apply flmOuter_valid a b alo ahi blo bhi h2 (ahi - alo) alo _ _ le_rfl (by omega)
  · exact fun j hj => absurd rfl hj
  · dsimp only [validBest]
    exact ⟨le_rfl, by omega, le_rfl, by omega, matchRun_zero a b alo blo⟩

theorem blocksChain_mono {a b : List String} :
    ∀ (bs : List (Nat × Nat × Nat)) {lo1 lo2 lo1' lo2' hi1 hi2 : Nat},
      lo1' ≤ lo1 → lo2' ≤ lo2 → blocksChain a b lo1 lo2 bs hi1 hi2 →
      blocksChain a b lo1' lo2' bs hi1 hi2 := by
  intro bs
  induction bs with
  | nil =>
    intro lo1 lo2 lo1' lo2' hi1 hi2 h1 h2 h
    exact ⟨le_trans h1 h.1, le_trans h2 h.2⟩
  | cons p rest ih =>
    intro lo1 lo2 lo1' lo2' hi1 hi2 h1 h2 h
    obtain ⟨i, j, k⟩ := p
    obtain ⟨g1, g2, g3, g4⟩ := h
    exact ⟨le_trans h1 g1, le_trans h2 g2, g3, g4⟩

theorem blocksChain_le {a b : List String} :
    ∀ (bs : List (Nat × Nat × Nat)) {lo1 lo2 hi1 hi2 : Nat},
      blocksChain a b lo1 lo2 bs hi1 hi2 → lo1 ≤ hi1 ∧ lo2 ≤ hi2 := by
  intro bs
  induction bs with
  | nil => intro lo1 lo2 hi1 hi2 h; exact h
  | cons p rest ih =>
    intro lo1 lo2 hi1 hi2 h
    obtain ⟨i, j, k⟩ := p
    obtain ⟨g1, g2, g3, g4⟩ := h
    have := ih g4
    omega

theorem blocksChain_append {a b : List String} :
    ∀ (xs ys : List (Nat × Nat × Nat)) {lo1 lo2 m1 m2 hi1 hi2 : Nat},
      blocksChain a b lo1 lo2 xs m1 m2 → blocksChain a b m1 m2 ys hi1 hi2 →
      blocksChain a b lo1 lo2 (xs ++ ys) hi1 hi2 := by
  intro xs
  induction xs with
  | nil =>
    intro ys lo1 lo2 m1 m2 hi1 hi2 hx hy
    exact blocksChain_mono ys hx.1 hx.2 hy
  | cons p rest ih =>
    intro ys lo1 lo2 m1 m2 hi1 hi2 hx hy
    obtain ⟨i, j, k⟩ := p
    obtain ⟨g1, g2, g3, g4⟩ := hx
    exact ⟨g1, g2, g3, ih ys g4 hy⟩

theorem matchBlocksRec_chain (a b : List String) :
    ∀ (fuel alo ahi blo bhi : Nat),
      alo ≤ ahi → ahi ≤ a.length → blo ≤ bhi → bhi ≤ b.length →
      blocksChain a b alo blo (matchBlocksRec a b fuel alo ahi blo bhi) ahi bhi := by
  intro fuel
  induction fuel with
  | zero =>
    intro alo ahi blo bhi h1 h2 h3 h4
    rw [matchBlocksRec]
    exact ⟨h1, h3⟩
  | succ fuel ih =>
    intro alo ahi blo bhi h1 h2 h3 h4
    simp only [matchBlocksRec]
    have hm := findLongestMatch_valid a b alo ahi blo bhi h1 h2 h3 h4
    rcases hf : findLongestMatch a b alo ahi blo bhi with ⟨mi, mj, mk⟩
    rw [hf] at hm
    obtain ⟨hm1, hm2, hm3, hm4, hm5⟩ := hm
    dsimp only at hm1 hm2 hm3 hm4 hm5 ⊢
    by_cases hk : mk = 0
    · rw [if_pos hk]
      exact ⟨h1, h3⟩
    · rw [if_neg hk]
      rw [List.append_assoc]
      apply blocksChain_append _ _ (ih alo mi blo mj hm1 (by omega) hm3 (by omega))
      exact ⟨le_rfl, le_rfl, hm5,
        ih (mi + mk) ahi (mj + mk) bhi (by omega) h2 (by omega) h4⟩

theorem mergeAdjacent_chain (a b : List String) :
    ∀ (blocks : List (Nat × Nat × Nat)) (cur : Nat × Nat × Nat)
      (lo1 lo2 hi1 hi2 : Nat),
      lo1 ≤ cur.1 → lo2 ≤ cur.2.1 → matchRun a b cur.1 cur.2.1 cur.2.2 →
      blocksChain a b (cur.1 + cur.2.2) (cur.2.1 + cur.2.2) blocks hi1 hi2 →
      blocksChain a b lo1 lo2 (mergeAdjacent cur blocks) hi1 hi2 := by
  intro blocks
  induction blocks with
  | nil =>
    intro cur lo1 lo2 hi1 hi2 h1 h2 hrun hchain
    obtain ⟨i1, j1, k1⟩ := cur
    rw [mergeAdjacent]
    obtain ⟨hc1, hc2⟩ := hchain
    by_cases hk1 : k1 ≠ 0
    · rw [if_pos hk1]
      exact ⟨h1, h2, hrun, hc1, hc2⟩
    · rw [if_neg hk1]
      dsimp only at h1 h2 hc1 hc2
      exact ⟨by omega, by omega⟩
  | cons p rest ih =>
    intro cur lo1 lo2 hi1 hi2 h1 h2 hrun hchain
    obtain ⟨i1, j1, k1⟩ := cur
    obtain ⟨i2, j2, k2⟩ := p
    rw [mergeAdjacent]
    obtain ⟨hc1, hc2, hc3, hc4⟩ := hchain
    by_cases hadj : i1 + k1 = i2 ∧ j1 + k1 = j2
    · rw [if_pos hadj]
      apply ih (i1, j1, k1 + k2) lo1 lo2 hi1 hi2 h1 h2
      · dsimp only
        apply matchRun_append hrun
        rw [hadj.1, hadj.2]
        exact hc3
      · dsimp only
        have e1 : i1 + (k1 + k2) = i2 + k2 := by omega
        have e2 : j1 + (k1 + k2) = j2 + k2 := by omega
        rw [e1, e2]
        exact hc4
    · rw [if_neg hadj]
      by_cases hk1 : k1 ≠ 0
      · rw [if_pos hk1]
        refine ⟨h1, h2, hrun, ?_⟩
        exact ih (i2, j2, k2) (i1 + k1) (j1 + k1) hi1 hi2 hc1 hc2 hc3 hc4
      · rw [if_neg hk1]
        have hz : k1 = 0 := by omega
        apply ih (i2, j2, k2) lo1 lo2 hi1 hi2 (by dsimp only; omega)
          (by dsimp only; omega) hc3 hc4

theorem getMatchingBlocks_chain (a b : List String) :
    blocksChain a b 0 0 (getMatchingBlocks a b) a.length b.length := by
  unfold getMatchingBlocks
  apply blocksChain_append
  · apply mergeAdjacent_chain a b _ (0, 0, 0) 0 0 a.length b.length le_rfl le_rfl
      (matchRun_zero a b 0 0)
    exact matchBlocksRec_chain a b _ 0 a.length 0 b.length (Nat.zero_le _) le_rfl
      (Nat.zero_le _) le_rfl
  · exact ⟨le_rfl, le_rfl, matchRun_zero a b a.length b.length, le_rfl, le_rfl⟩

theorem opsChain_append {a b : List String} :
    ∀ (xs ys : List Opcode) {i j m1 m2 e1 e2 : Nat},
      opsChain a b i j xs m1 m2 → opsChain a b m1 m2 ys e1 e2 →
      opsChain a b i j (xs ++ ys) e1 e2 := by
  intro xs
  induction xs with
  | nil =>
    intro ys i j m1 m2 e1 e2 hx hy
    rw [List.nil_append]
    obtain ⟨h1, h2⟩ := hx
    rw [h1, h2]
    exact hy
  | cons op rest ih =>
    intro ys i j m1 m2 e1 e2 hx hy
    obtain ⟨h1, h2, h3, h4⟩ := hx
    exact ⟨h1, h2, h3, ih ys h4 hy⟩

theorem opcodeOk_mk {a b : List String} {tg : OpTag} {x1 x2 y1 y2 : Nat}
    (h1 : x1 ≤ x2) (h2 : y1 ≤ y2) (h3 : x2 ≤ a.length) (h4 : y2 ≤ b.length)
    (h5 : tg = OpTag.del → y1 = y2) (h6 : tg = OpTag.ins → x1 = x2)
    (h7 : tg = OpTag.eq → x2 - x1 = y2 - y1 ∧ matchRun a b x1 y1 (x2 - x1)) :
    opcodeOk a b ⟨tg, x1, x2, y1, y2⟩ :=
  ⟨h1, h2, h3, h4, h5, h6, h7⟩

theorem getOpcodesAux_chain (a b : List String) :
    ∀ (blocks : List (Nat × Nat × Nat)) (i j : Nat),
      blocksChain a b i j blocks a.length b.length →
      opsChain a b i j (getOpcodesAux i j (blocks ++ [(a.length, b.length, 0)]))
        a.length b.length := by
  intro blocks
  induction blocks with
  | nil =>
    intro i j hchain
    obtain ⟨h1, h2⟩ := hchain
    rw [List.nil_append, getOpcodesAux]
    have hrec : getOpcodesAux (a.length + 0) (b.length + 0) [] = [] := by
      rw [getOpcodesAux]
    by_cases hia : i < a.length
    · by_cases hjb : j < b.length
      · rw [if_pos ⟨hia, hjb⟩, if_neg (by simp), hrec]
        simp only [List.append_eq, List.append_nil, List.nil_append]
        exact ⟨rfl, rfl,
          opcodeOk_mk (by omega) (by omega) le_rfl le_rfl (by nofun) (by nofun) (by nofun), rfl, rfl⟩
      · rw [if_neg (by omega), if_pos hia, if_neg (by simp), hrec]
        simp only [List.append_eq, List.append_nil, List.nil_append]
        exact ⟨rfl, rfl,
          opcodeOk_mk (by omega) (by omega) le_rfl le_rfl (fun _ => by omega) (by nofun) (by nofun), rfl, rfl⟩
    · by_cases hjb : j < b.length
      · rw [if_neg (by omega), if_neg hia, if_pos hjb, if_neg (by simp), hrec]
        simp only [List.append_eq, List.append_nil, List.nil_append]
        exact ⟨rfl, rfl,
          opcodeOk_mk (by omega) (by omega) le_rfl le_rfl (by nofun) (fun _ => by omega) (by nofun), rfl, rfl⟩
      · rw [if_neg (by omega), if_neg hia, if_neg hjb, if_neg (by simp), hrec]
        simp only [List.append_eq, List.append_nil, List.nil_append]
        exact ⟨by omega, by omega⟩
  | cons p rest ih =>
    intro i j hchain
    obtain ⟨ai, bj, size⟩ := p
    obtain ⟨h1, h2, h3, h4⟩ := hchain
    obtain ⟨hle1, hle2⟩ := blocksChain_le rest h4
    rw [List.cons_append, getOpcodesAux]
    have hrest := ih (ai + size) (bj + size) h4
    have heqpart :
        opsChain a b ai bj
          ((if size ≠ 0 then [⟨OpTag.eq, ai, ai + size, bj, bj + size⟩] else []) ++
            getOpcodesAux (ai + size) (bj + size)
              (rest ++ [(a.length, b.length, 0)])) a.length b.length := by
      by_cases hsz : size ≠ 0
      · rw [if_pos hsz, List.cons_append, List.nil_append]
        refine ⟨rfl, rfl, ?_, hrest⟩
        refine opcodeOk_mk (by omega) (by omega) (by omega) (by omega) (by nofun) (by nofun) ?_
        intro _
        constructor
        · omega
        · have e1 : ai + size - ai = size := by omega
          rw [e1]
          exact h3
      · rw [if_neg hsz, List.nil_append]
        have hz : size = 0 := by omega
        subst hz
        simpa using hrest
    simp only [List.append_assoc]
    by_cases hia : i < ai
    · by_cases hjb : j < bj
      · rw [if_pos ⟨hia, hjb⟩, List.cons_append, List.nil_append]
        exact ⟨rfl, rfl,
          opcodeOk_mk (by omega) (by omega) (by omega) (by omega) (by nofun) (by nofun) (by nofun),
          heqpart⟩
      · rw [if_neg (by omega), if_pos hia, List.cons_append, List.nil_append]
        exact ⟨rfl, rfl,
          opcodeOk_mk (by omega) (by omega) (by omega) (by omega) (fun _ => by omega) (by nofun) (by nofun),
          heqpart⟩
    · by_cases hjb : j < bj
      · rw [if_neg (by omega), if_neg hia, if_pos hjb, List.cons_append,
          List.nil_append]
        exact ⟨rfl, rfl,
          opcodeOk_mk (by omega) (by omega) (by omega) (by omega) (by nofun) (fun _ => by omega) (by nofun),
          heqpart⟩
      · rw [if_neg (by omega), if_neg hia, if_neg hjb, List.nil_append]
        have hi2 : i = ai := by omega
        have hj2 : j = bj := by omega
        rw [hi2, hj2]
        exact heqpart

theorem getOpcodes_chain (a b : List String) :
    opsChain a b 0 0 (getOpcodes a b) a.length b.length := by
  unfold getOpcodes getMatchingBlocks
  apply getOpcodesAux_chain
  apply mergeAdjacent_chain a b _ (0, 0, 0) 0 0 _ _ le_rfl le_rfl
    (matchRun_zero a b 0 0)
  exact matchBlocksRec_chain a b _ 0 a.length 0 b.length (Nat.zero_le _) le_rfl
    (Nat.zero_le _) le_rfl

theorem opsChain_le {a b : List String} :
    ∀ (ops : List Opcode) {i j e1 e2 : Nat},
      opsChain a b i j ops e1 e2 → i ≤ e1 ∧ j ≤ e2 := by
  intro ops
  induction ops with
  | nil =>
    intro i j e1 e2 h
    obtain ⟨h1, h2⟩ := h
    omega
  | cons op rest ih =>
    intro i j e1 e2 h
    obtain ⟨h1, h2, hok, hrest⟩ := h
    have := ih hrest
    obtain ⟨o1, o2, _, _, _⟩ := hok
    omega

theorem opsChain_getLast {a b : List String} :
    ∀ (ops : List Opcode) {i j e1 e2 : Nat} (d : Opcode),
      ops ≠ [] → opsChain a b i j ops e1 e2 →
      (ops.getLastD d).a2 = e1 ∧ (ops.getLastD d).b2 = e2 := by
  intro ops
  induction ops with
  | nil => intro i j e1 e2 d hne _; exact absurd rfl hne
  | cons op rest ih =>
    intro i j e1 e2 d hne h
    obtain ⟨h1, h2, hok, hrest⟩ := h
    cases rest with
    | nil =>
      obtain ⟨he1, he2⟩ := hrest
      simp only [List.getLastD_cons, List.getLastD_nil]
      exact ⟨he1, he2⟩
    | cons op2 rest2 =>
      rw [List.getLastD_cons]
      exact ih op (by simp) hrest

theorem groupsChain_gapExtend {a b : List String} :
    ∀ (gs : List (List Opcode)) {p q p2 q2 : Nat},
      p ≤ p2 → q ≤ q2 → p2 - p = q2 - q → matchRun a b p q (p2 - p) →
      groupsChain a b p2 q2 gs → groupsChain a b p q gs := by
  intro gs
  cases gs with
  | nil =>
    intro p q p2 q2 h1 h2 h3 hrun hch
    obtain ⟨c1, c2, c3, c4⟩ := hch
    refine ⟨by omega, by omega, by omega, ?_⟩
    have : a.length - p = (p2 - p) + (a.length - p2) := by omega
    rw [this]
    apply matchRun_append hrun
    have e1 : p + (p2 - p) = p2 := by omega
    have e2 : q + (q2 - q) = q2 := by omega
    rw [e1, h3, e2]
    exact c4
  | cons g tl =>
    intro p q p2 q2 h1 h2 h3 hrun hch
    obtain ⟨s1, t1, e1, e2, hne, hops, hl1, hl2, hd, hgap, hrest⟩ := hch
    refine ⟨s1, t1, e1, e2, hne, hops, by omega, by omega, by omega, ?_, hrest⟩
    have : s1 - p = (p2 - p) + (s1 - p2) := by omega
    rw [this]
    apply matchRun_append hrun
    have e3 : p + (p2 - p) = p2 := by omega
    have e4 : q + (q2 - q) = q2 := by omega
    rw [e3, h3, e4]
    exact hgap

theorem groupLoop_out :
    ∀ (codes : List Opcode) (group : List Opcode) (out : List (List Opcode)),
      groupLoop codes group out = out ++ groupLoop codes group [] := by
  intro codes
  induction codes with
  | nil =>
    intro group out
    rcases group with _ | ⟨⟨tag, x1, x2, y1, y2⟩, rest⟩
    · simp [groupLoop]
    · cases rest with
      | nil => cases tag <;> simp [groupLoop]
      | cons r rs => simp [groupLoop]
  | cons c rest ih =>
    intro group out
    obtain ⟨tag, x1, x2, y1, y2⟩ := c
    rw [groupLoop, groupLoop]
    by_cases h : tag = OpTag.eq ∧ x1 + 6 < x2
    · rw [if_pos h, if_pos h, ih _ (out ++ _), ih _ ([] ++ _)]
      simp
    · rw [if_neg h, if_neg h, ih _ out]

theorem groupLoop_chain (a b : List String) :
    ∀ (codes group : List Opcode) (gs gt ci cj laE lbE : Nat),
      opsChain a b gs gt group ci cj →
      opsChain a b ci cj codes laE lbE →
      laE ≤ a.length → lbE ≤ b.length →
      a.length - laE = b.length - lbE →
      matchRun a b laE lbE (a.length - laE) →
      groupsChain a b gs gt (groupLoop codes group []) := by
  intro codes
  induction codes with
  | nil =>
    intro group gs gt ci cj laE lbE hgroup hcodes hle1 hle2 hdiff htail
    obtain ⟨he1, he2⟩ := hcodes
    subst he1
    subst he2
    rcases group with _ | ⟨⟨tag, x1, x2, y1, y2⟩, rest⟩
    · simp only [groupLoop]
      obtain ⟨hg1, hg2⟩ := hgroup
      subst hg1
      subst hg2
      exact ⟨hle1, hle2, hdiff, htail⟩
    · obtain ⟨hx1, hy1, hok, hrest⟩ := hgroup
      have hx1' : x1 = gs := hx1
      have hy1' : y1 = gt := hy1
      obtain ⟨ho1, ho2, ho3, ho4, hod, hoi, hoeq⟩ := hok
      simp only [] at ho1 ho2 ho3 ho4 hod hoi hoeq
      cases rest with
      | nil =>
        obtain ⟨hx2, hy2⟩ := hrest
        have hx2' : x2 = ci := hx2
        have hy2' : y2 = cj := hy2
        cases tag with
        | eq =>
          simp only [groupLoop]
          obtain ⟨hsz, hrun⟩ := hoeq rfl
          refine ⟨by omega, by omega, by omega, ?_⟩
          have e : a.length - gs = (x2 - x1) + (a.length - ci) := by omega
          rw [e]
          apply matchRun_append
          · rw [← hx1', ← hy1']
            exact hrun
          · have e1 : gs + (x2 - x1) = ci := by omega
            have e2 : gt + (x2 - x1) = cj := by omega
            rw [e1, e2]
            exact htail
        | rep =>
          simp only [groupLoop]
          refine ⟨gs, gt, ci, cj, by simp, ?_, le_rfl, le_rfl, by omega, ?_, ?_⟩
          · exact ⟨hx1, hy1, ⟨ho1, ho2, ho3, ho4, hod, hoi, hoeq⟩, hx2, hy2⟩
          · have e : gs - gs = 0 := by omega
            rw [e]
            exact matchRun_zero a b gs gt
          · exact ⟨hle1, hle2, hdiff, htail⟩
        | del =>
          simp only [groupLoop]
          refine ⟨gs, gt, ci, cj, by simp, ?_, le_rfl, le_rfl, by omega, ?_, ?_⟩
          · exact ⟨hx1, hy1, ⟨ho1, ho2, ho3, ho4, hod, hoi, hoeq⟩, hx2, hy2⟩
          · have e : gs - gs = 0 := by omega
            rw [e]
            exact matchRun_zero a b gs gt
          · exact ⟨hle1, hle2, hdiff, htail⟩
        | ins =>
          simp only [groupLoop]
          refine ⟨gs, gt, ci, cj, by simp, ?_, le_rfl, le_rfl, by omega, ?_, ?_⟩
          · exact ⟨hx1, hy1, ⟨ho1, ho2, ho3, ho4, hod, hoi, hoeq⟩, hx2, hy2⟩
          · have e : gs - gs = 0 := by omega
            rw [e]
            exact matchRun_zero a b gs gt
          · exact ⟨hle1, hle2, hdiff, htail⟩
      | cons op2 rest2 =>
        simp only [groupLoop]
        refine ⟨gs, gt, ci, cj, by simp, ?_, le_rfl, le_rfl, by omega, ?_, ?_⟩
        · exact ⟨hx1, hy1, ⟨ho1, ho2, ho3, ho4, hod, hoi, hoeq⟩, hrest⟩
        · have e : gs - gs = 0 := by omega
          rw [e]
          exact matchRun_zero a b gs gt
        · exact ⟨hle1, hle2, hdiff, htail⟩
  | cons c crest ih =>
    intro group gs gt ci cj laE lbE hgroup hcodes hle1 hle2 hdiff htail
    obtain ⟨tag, x1, x2, y1, y2⟩ := c
    obtain ⟨hx1, hy1, hok, hcrest⟩ := hcodes
    have hx1' : x1 = ci := hx1
    have hy1' : y1 = cj := hy1
    subst hx1'
    subst hy1'
    obtain ⟨ho1, ho2, ho3, ho4, hod, hoi, hoeq⟩ := hok
    simp only [] at ho1 ho2 ho3 ho4 hod hoi hoeq
    simp only [] at hcrest
    rw [groupLoop]
    by_cases hsplit : tag = OpTag.eq ∧ x1 + 6 < x2
    · rw [if_pos hsplit]
      rw [List.nil_append, groupLoop_out]
      obtain ⟨hsz, hrun⟩ := hoeq hsplit.1
      obtain ⟨htag, hbig⟩ := hsplit
      subst htag
      have hminx : min x2 (x1 + 3) = x1 + 3 := min_eq_right (by omega)
      have hminy : min y2 (y1 + 3) = y1 + 3 := min_eq_right (by omega)
      have hmaxx : max x1 (x2 - 3) = x2 - 3 := max_eq_right (by omega)
      have hmaxy : max y1 (y2 - 3) = y2 - 3 := max_eq_right (by omega)
      rw [hminx, hminy, hmaxx, hmaxy]
      rw [List.singleton_append]
      refine ⟨gs, gt, x1 + 3, y1 + 3, by simp, ?_, le_rfl, le_rfl, by omega, ?_, ?_⟩
      · apply opsChain_append _ _ hgroup
        refine ⟨rfl, rfl, ?_, rfl, rfl⟩
        refine opcodeOk_mk (by omega) (by omega) (by omega) (by omega) (by nofun) (by nofun) ?_
        intro _
        refine ⟨by omega, ?_⟩
        have e : x1 + 3 - x1 = 3 := by omega
        rw [e]
        exact matchRun_mono hrun (by omega)
      · have e : gs - gs = 0 := by omega
        rw [e]
        exact matchRun_zero a b gs gt
      · have hih := ih [⟨OpTag.eq, x2 - 3, x2, y2 - 3, y2⟩] (x2 - 3) (y2 - 3)
          x2 y2 laE lbE ?_ hcrest hle1 hle2 hdiff htail
        · apply groupsChain_gapExtend _ (by omega) (by omega) (by omega) ?_ hih
          have hsh := matchRun_shift (d := 3) hrun
          have e1 : x2 - 3 - (x1 + 3) = x2 - x1 - 3 - 3 := by omega
          rw [e1]
          exact matchRun_mono hsh (by omega)
        · refine ⟨rfl, rfl, ?_, rfl, rfl⟩
          refine opcodeOk_mk (by omega) (by omega) (by omega) (by omega) (by nofun) (by nofun) ?_
          intro _
          refine ⟨by omega, ?_⟩
          have hsh := matchRun_shift (d := x2 - x1 - 3) hrun
          have e1 : x1 + (x2 - x1 - 3) = x2 - 3 := by omega
          have e2 : y1 + (x2 - x1 - 3) = y2 - 3 := by omega
          have e3 : x2 - x1 - (x2 - x1 - 3) = 3 := by omega
          rw [e1, e2, e3] at hsh
          have e4 : x2 - (x2 - 3) = 3 := by omega
          rw [e4]
          exact hsh
    · rw [if_neg hsplit]
      exact ih (group ++ [⟨tag, x1, x2, y1, y2⟩]) gs gt x2 y2 laE lbE
        (opsChain_append _ _ hgroup ⟨rfl, rfl, ⟨ho1, ho2, ho3, ho4, hod, hoi, hoeq⟩, rfl, rfl⟩)
        hcrest hle1 hle2 hdiff htail

theorem adjustFirst_chain {a b : List String} {codes : List Opcode} {la lb : Nat}
    (h : opsChain a b 0 0 codes la lb) :
    ∃ s, opsChain a b s s (adjustFirst codes) la lb ∧ matchRun a b 0 0 s := by
  rcases codes with _ | ⟨⟨tag, x1, x2, y1, y2⟩, rest⟩
  · exact ⟨0, h, matchRun_zero a b 0 0⟩
  · obtain ⟨hx1, hy1, hok, hrest⟩ := h
    have hx1' : x1 = 0 := hx1
    have hy1' : y1 = 0 := hy1
    obtain ⟨ho1, ho2, ho3, ho4, hod, hoi, hoeq⟩ := hok
    simp only [] at ho1 ho2 ho3 ho4 hod hoi hoeq
    cases tag with
    | eq =>
      obtain ⟨hsz, hrun⟩ := hoeq rfl
      have hmx : max x1 (x2 - 3) = x2 - 3 := max_eq_right (by omega)
      have hmy : max y1 (y2 - 3) = y2 - 3 := max_eq_right (by omega)
      refine ⟨x2 - 3, ?_, ?_⟩
      · show opsChain a b (x2 - 3) (x2 - 3)
          (⟨OpTag.eq, max x1 (x2 - 3), x2, max y1 (y2 - 3), y2⟩ :: rest) la lb
        rw [hmx, hmy]
        refine ⟨rfl, (show y2 - 3 = x2 - 3 by omega), ?_, hrest⟩
        refine opcodeOk_mk (by omega) (by omega) ho3 ho4 (by nofun) (by nofun) ?_
        intro _
        refine ⟨by omega, ?_⟩
        have hsh := matchRun_shift (d := x2 - 3 - x1) hrun
        have e1 : x1 + (x2 - 3 - x1) = x2 - 3 := by omega
        have e2 : y1 + (x2 - 3 - x1) = y2 - 3 := by omega
        have e3 : x2 - x1 - (x2 - 3 - x1) = x2 - (x2 - 3) := by omega
        rw [e1, e2, e3] at hsh
        exact hsh
      · have hm := matchRun_mono hrun (show x2 - 3 - x1 ≤ x2 - x1 by omega)
        have e : x2 - 3 - x1 = x2 - 3 := by omega
        rw [e] at hm
        rw [hx1', hy1'] at hm
        exact hm
    | rep =>
      refine ⟨0, ?_, matchRun_zero a b 0 0⟩
      show opsChain a b 0 0 (⟨OpTag.rep, x1, x2, y1, y2⟩ :: rest) la lb
      exact ⟨hx1, hy1, ⟨ho1, ho2, ho3, ho4, hod, hoi, hoeq⟩, hrest⟩
    | del =>
      refine ⟨0, ?_, matchRun_zero a b 0 0⟩
      show opsChain a b 0 0 (⟨OpTag.del, x1, x2, y1, y2⟩ :: rest) la lb
      exact ⟨hx1, hy1, ⟨ho1, ho2, ho3, ho4, hod, hoi, hoeq⟩, hrest⟩
    | ins =>
      refine ⟨0, ?_, matchRun_zero a b 0 0⟩
      show opsChain a b 0 0 (⟨OpTag.ins, x1, x2, y1, y2⟩ :: rest) la lb
      exact ⟨hx1, hy1, ⟨ho1, ho2, ho3, ho4, hod, hoi, hoeq⟩, hrest⟩

theorem adjustLast_chain {a b : List String} :
    ∀ (codes : List Opcode) {i j la lb : Nat},
      opsChain a b i j codes la lb →
      ∃ la2 lb2, opsChain a b i j (adjustLast codes) la2 lb2 ∧
        la2 ≤ la ∧ lb2 ≤ lb ∧ la - la2 = lb - lb2 ∧
        matchRun a b la2 lb2 (la - la2)
  | [], i, j, la, lb, h => by
    refine ⟨la, lb, h, le_rfl, le_rfl, by omega, ?_⟩
    have e : la - la = 0 := by omega
    rw [e]
    exact matchRun_zero a b la lb
  | [⟨tag, x1, x2, y1, y2⟩], i, j, la, lb, h => by
    obtain ⟨hx1, hy1, hok, hend⟩ := h
    obtain ⟨hx2, hy2⟩ := hend
    have hx2' : x2 = la := hx2
    have hy2' : y2 = lb := hy2
    obtain ⟨ho1, ho2, ho3, ho4, hod, hoi, hoeq⟩ := hok
    simp only [] at ho1 ho2 ho3 ho4 hod hoi hoeq
    cases tag with
    | eq =>
      obtain ⟨hsz, hrun⟩ := hoeq rfl
      refine ⟨min x2 (x1 + 3), min y2 (y1 + 3), ?_, by omega, by omega, by omega, ?_⟩
      · show opsChain a b i j
          [⟨OpTag.eq, x1, min x2 (x1 + 3), y1, min y2 (y1 + 3)⟩]
          (min x2 (x1 + 3)) (min y2 (y1 + 3))
        refine ⟨hx1, hy1, ?_, rfl, rfl⟩
        refine opcodeOk_mk (by omega) (by omega) (by omega) (by omega) (by nofun) (by nofun) ?_
        intro _
        refine ⟨by omega, ?_⟩
        have hm := matchRun_mono hrun
          (show min x2 (x1 + 3) - x1 ≤ x2 - x1 by omega)
        exact hm
      · have hsh := matchRun_shift (d := min x2 (x1 + 3) - x1) hrun
        have e1 : x1 + (min x2 (x1 + 3) - x1) = min x2 (x1 + 3) := by omega
        have e2 : y1 + (min x2 (x1 + 3) - x1) = min y2 (y1 + 3) := by omega
        have e3 : x2 - x1 - (min x2 (x1 + 3) - x1) = la - min x2 (x1 + 3) := by
          omega
        rw [e1, e2, e3] at hsh
        exact hsh
    | rep =>
      refine ⟨la, lb, ?_, le_rfl, le_rfl, by omega, ?_⟩
      · show opsChain a b i j [⟨OpTag.rep, x1, x2, y1, y2⟩] la lb
        exact ⟨hx1, hy1, ⟨ho1, ho2, ho3, ho4, hod, hoi, hoeq⟩, hx2, hy2⟩
      · have e : la - la = 0 := by omega
        rw [e]
        exact matchRun_zero a b la lb
    | del =>
      refine ⟨la, lb, ?_, le_rfl, le_rfl, by omega, ?_⟩
      · show opsChain a b i j [⟨OpTag.del, x1, x2, y1, y2⟩] la lb
        exact ⟨hx1, hy1, ⟨ho1, ho2, ho3, ho4, hod, hoi, hoeq⟩, hx2, hy2⟩
      · have e : la - la = 0 := by omega
        rw [e]
        exact matchRun_zero a b la lb
    | ins =>
      refine ⟨la, lb, ?_, le_rfl, le_rfl, by omega, ?_⟩
      · show opsChain a b i j [⟨OpTag.ins, x1, x2, y1, y2⟩] la lb
        exact ⟨hx1, hy1, ⟨ho1, ho2, ho3, ho4, hod, hoi, hoeq⟩, hx2, hy2⟩
      · have e : la - la = 0 := by omega
        rw [e]
        exact matchRun_zero a b la lb
  | ⟨t0, z1, z2, w1, w2⟩ :: op2 :: rest2, i, j, la, lb, h => by
    obtain ⟨hx1, hy1, hok, hrest⟩ := h
    obtain ⟨la2, lb2, hch, h1, h2, h3, h4⟩ := adjustLast_chain (op2 :: rest2) hrest
    refine ⟨la2, lb2, ?_, h1, h2, h3, h4⟩
    cases t0 <;> exact ⟨hx1, hy1, hok, hch⟩

theorem groupedOpcodes_chain (a b : List String) :
    groupsChain a b 0 0 (groupedOpcodes a b) := by
  simp only [groupedOpcodes]
  by_cases hemp : (getOpcodes a b).isEmpty = true
  · have hch := getOpcodes_chain a b
    rw [List.isEmpty_iff.mp hemp] at hch
    obtain ⟨hla, hlb⟩ := hch
    rw [if_pos hemp]
    have e : groupLoop (adjustLast (adjustFirst [⟨OpTag.eq, 0, 1, 0, 1⟩])) [] []
        = ([] : List (List Opcode)) := rfl
    rw [e]
    refine ⟨by omega, by omega, by omega, ?_⟩
    have e2 : a.length - 0 = 0 := by omega
    rw [e2]
    exact matchRun_zero a b 0 0
  · rw [if_neg hemp]
    obtain ⟨s, hadj1, hrun0⟩ := adjustFirst_chain (getOpcodes_chain a b)
    obtain ⟨la2, lb2, hadj2, hl1, hl2, hd2, ht2⟩ := adjustLast_chain _ hadj1
    have hg := groupLoop_chain a b (adjustLast (adjustFirst (getOpcodes a b)))
      [] s s s s la2 lb2 ⟨rfl, rfl⟩ hadj2 (by omega) (by omega) hd2 ht2
    apply groupsChain_gapExtend _ (Nat.zero_le s) (Nat.zero_le s) rfl ?_ hg
    have e : s - 0 = s := by omega
    rw [e]
    exact hrun0

theorem digitChar_spec (d : Nat) (hd : d < 10) :
    (Char.ofNat (48 + d)).toNat = 48 + d ∧ (Char.ofNat (48 + d)).isDigit = true ∧
    isLineBreak (Char.ofNat (48 + d)) = false := by
  interval_cases d <;> exact ⟨rfl, rfl, rfl⟩

theorem natDecAux_digits :
    ∀ (fuel n : Nat), n < fuel →
      natDecAux fuel n ≠ [] ∧
      ∀ c ∈ natDecAux fuel n, c.isDigit = true ∧ isLineBreak c = false := by
  intro fuel
  induction fuel with
  | zero => intro n hn; omega
  | succ fuel ih =>
    intro n hn
    rw [natDecAux]
    by_cases h10 : n < 10
    · rw [if_pos h10]
      obtain ⟨hc1, hc2, hc3⟩ := digitChar_spec n h10
      refine ⟨by simp, ?_⟩
      intro c hc
      rw [List.mem_singleton] at hc
      subst hc
      exact ⟨hc2, hc3⟩
    · rw [if_neg h10]
      have hdiv : n / 10 < fuel := by omega
      obtain ⟨hne, hmem⟩ := ih (n / 10) hdiv
      obtain ⟨hc1, hc2, hc3⟩ := digitChar_spec (n % 10) (by omega)
      refine ⟨by simp [hne], ?_⟩
      intro c hc
      rw [List.mem_append] at hc
      cases hc with
      | inl h => exact hmem c h
      | inr h =>
        rw [List.mem_singleton] at h
        subst h
        exact ⟨hc2, hc3⟩

theorem digitsToNat_natDecAux :
    ∀ (fuel n : Nat), n < fuel → digitsToNat (natDecAux fuel n) = n := by
  intro fuel
  induction fuel with
  | zero => intro n hn; omega
  | succ fuel ih =>
    intro n hn
    rw [natDecAux]
    by_cases h10 : n < 10
    · rw [if_pos h10]
      obtain ⟨hc1, _, _⟩ := digitChar_spec n h10
      simp [digitsToNat, hc1]
    · rw [if_neg h10]
      have hdiv : n / 10 < fuel := by omega
      obtain ⟨hc1, _, _⟩ := digitChar_spec (n % 10) (by omega)
      have hrec := ih (n / 10) hdiv
      simp only [digitsToNat, List.foldl_append, List.foldl_cons, List.foldl_nil]
      simp only [digitsToNat] at hrec
      rw [hrec, hc1]
      omega

theorem takeDigits_append :
    ∀ (ds : List Char), (∀ c ∈ ds, c.isDigit = true) →
      ∀ (c : Char) (cs : List Char), c.isDigit = false →
        takeDigits (ds ++ c :: cs) = (ds, c :: cs) := by
  intro ds
  induction ds with
  | nil =>
    intro _ c cs hc
    rw [List.nil_append, takeDigits, if_neg (by simp [hc])]
  | cons d ds ih =>
    intro hds c cs hc
    rw [List.cons_append, takeDigits,
      if_pos (hds d (List.mem_cons_self d ds))]
    rw [ih (fun x hx => hds x (List.mem_cons_of_mem d hx)) c cs hc]

theorem natToStr_digits (n : Nat) :
    (natToStr n).data ≠ [] ∧
    ∀ c ∈ (natToStr n).data, c.isDigit = true ∧ isLineBreak c = false :=
  natDecAux_digits (n + 1) n (by omega)

theorem parseDecimal_natToStr (n : Nat) (c : Char) (cs : List Char)
    (hc : c.isDigit = false) :
    parseDecimal ((natToStr n).data ++ c :: cs) = some (n, c :: cs) := by
  obtain ⟨hne, hdig⟩ := natToStr_digits n
  rw [parseDecimal]
  rw [takeDigits_append _ (fun x hx => (hdig x hx).1) c cs hc]
  simp only []
  rw [if_neg (by simpa [List.isEmpty_iff] using hne)]
  have : digitsToNat (natToStr n).data = n := digitsToNat_natDecAux (n + 1) n (by omega)
  rw [this]

theorem parseHunkRange_fmt (start stop : Nat) (hss : start ≤ stop) (c : Char)
    (cs : List Char) (hc : c.isDigit = false) (hcm : c ≠ ',') :
    parseHunkRange ((fmtRangeUnified start stop).data ++ c :: cs) =
      some ((start, stop - start), c :: cs) := by
  rw [fmtRangeUnified]
  by_cases h1 : stop - start = 1
  · rw [if_pos h1]
    rw [parseHunkRange, parseDecimal_natToStr _ c cs hc]
    simp only []
    split
    · rename_i rest2 heq
      injection heq with hh _
      exact absurd hh hcm
    · simp only [show start + 1 - 1 = start from by omega, h1]
  · rw [if_neg h1]
    by_cases h0 : stop - start = 0
    · rw [if_pos h0, h0]
      rw [String.data_append, String.data_append, List.append_assoc,
        List.append_assoc]
      simp only [show (",".data : List Char) = [','] from rfl,
        List.singleton_append]
      rw [show start + 1 - 1 = start from by omega]
      rw [parseHunkRange, parseDecimal_natToStr _ ',' _ (by decide)]
      simp only []
      rw [parseDecimal_natToStr _ c cs hc]
      simp
    · rw [if_neg h0]
      rw [String.data_append, String.data_append, List.append_assoc,
        List.append_assoc]
      simp only [show (",".data : List Char) = [','] from rfl,
        List.singleton_append]
      rw [parseHunkRange, parseDecimal_natToStr _ ',' _ (by decide)]
      simp only []
      rw [parseDecimal_natToStr _ c cs hc]
      simp only []
      rw [if_neg h0]
      simp only [show start + 1 - 1 = start from by omega]

theorem parseHunkHeader_mk (s1 e1 t1 e2 : Nat) (h1 : s1 ≤ e1) (h2 : t1 ≤ e2) :
    parseHunkHeader ("@@ -" ++ fmtRangeUnified s1 e1 ++ " +" ++
      fmtRangeUnified t1 e2 ++ " @@\n") = some (s1, e1 - s1, t1, e2 - t1) := by
  have hdata : ("@@ -" ++ fmtRangeUnified s1 e1 ++ " +" ++
      fmtRangeUnified t1 e2 ++ " @@\n").data =
      '@' :: '@' :: ' ' :: '-' :: ((fmtRangeUnified s1 e1).data ++
        ' ' :: '+' :: ((fmtRangeUnified t1 e2).data ++ [' ', '@', '@', '\n'])) := by
    simp only [String.data_append, List.append_assoc]
    rfl
  rw [parseHunkHeader, hdata]
  simp only []
  rw [parseHunkRange_fmt s1 e1 h1 ' ' _ (by decide) (by decide)]
  simp only []
  rw [parseHunkRange_fmt t1 e2 h2 ' ' ['@', '@', '\n'] (by decide) (by decide)]
  simp

set_option maxHeartbeats 2000000 in
theorem splitlinesAux_nl (cur rest : List Char) :
    splitlinesAux cur ('\n' :: rest) =
      (cur.reverse ++ ['\n']) :: splitlinesAux [] rest := by
  rw [splitlinesAux.eq_def]
  split
  · rename_i heq
    exact absurd heq (by simp)
  · rename_i r heq
    injection heq with hh _
    exact absurd hh (by decide)
  · rename_i c' r heq
    injection heq with hh ht
    subst hh
    subst ht
    rw [if_pos (by decide)]

set_option maxHeartbeats 2000000 in
theorem splitlinesAux_char (c : Char) (hc : isLineBreak c = false)
    (cur rest : List Char) :
    splitlinesAux cur (c :: rest) = splitlinesAux (c :: cur) rest := by
  rw [splitlinesAux.eq_def]
  split
  · rename_i heq
    exact absurd heq (by simp)
  · rename_i r heq
    injection heq with hh _
    subst hh
    exact absurd hc (by decide)
  · rename_i c' r heq
    injection heq with hh ht
    subst hh
    subst ht
    rw [if_neg (by simp [hc])]

theorem splitlinesAux_content :
    ∀ (content : List Char), (∀ c ∈ content, isLineBreak c = false) →
      ∀ (cur rest : List Char),
        splitlinesAux cur (content ++ '\n' :: rest) =
          (cur.reverse ++ content ++ ['\n']) :: splitlinesAux [] rest := by
  intro content
  induction content with
  | nil =>
    intro _ cur rest
    rw [List.nil_append, splitlinesAux_nl, List.append_nil]
  | cons c cs ih =>
    intro hmem cur rest
    rw [List.cons_append, splitlinesAux_char c (hmem c (List.mem_cons_self c cs))]
    rw [ih (fun x hx => hmem x (List.mem_cons_of_mem c hx)) (c :: cur) rest]
    simp [List.append_assoc]

theorem splitlines_flatten :
    ∀ (lines : List (List Char)), (∀ l ∈ lines, wellLine l) →
      pySplitlinesKeepends (String.mk lines.flatten) = lines.map String.mk := by
  intro lines
  induction lines with
  | nil => intro _; rfl
  | cons l ls ih =>
    intro hmem
    obtain ⟨content, hl, hcontent⟩ := hmem l (List.mem_cons_self l ls)
    have hrec := ih (fun x hx => hmem x (List.mem_cons_of_mem l hx))
    rw [pySplitlinesKeepends] at hrec ⊢
    simp only [List.flatten_cons, List.map_cons]
    rw [hl, List.append_assoc, List.singleton_append]
    rw [splitlinesAux_content content hcontent [] ls.flatten]
    rw [List.map_cons]
    simp only [List.reverse_nil, List.nil_append]
    rw [← hl]
    exact congrArg _ hrec

theorem concatStrings_mk (lines : List (List Char)) :
    concatStrings (lines.map String.mk) = String.mk lines.flatten := by
  rw [concatStrings]
  congr 1
  rw [List.map_map, show String.data ∘ String.mk = id from rfl, List.map_id]

theorem mk_data (s : String) : String.mk s.data = s := rfl

theorem drop_cons_of_get? {α : Type} :
    ∀ {l : List α} {n : Nat} {x : α}, l.get? n = some x →
      l.drop n = x :: l.drop (n + 1)
  | [], n, x, h => by simp at h
  | y :: t, 0, x, h => by
    simp only [List.get?_cons_zero, Option.some.injEq] at h
    subst h
    rfl
  | y :: t, n + 1, x, h => by
    rw [List.get?_cons_succ] at h
    show t.drop n = x :: t.drop (n + 1)
    exact drop_cons_of_get? h

theorem matchRun_bound_b {a b : List String} {i j k : Nat}
    (h : matchRun a b i j k) : k = 0 ∨ j + k ≤ b.length := by
  cases k with
  | zero => exact Or.inl rfl
  | succ k =>
    obtain ⟨x, _, hb⟩ := h k (by omega)
    right
    have hlt : j + k < b.length := by
      by_contra hge
      rw [List.get?_eq_none.mpr (by omega)] at hb
      cases hb
    omega

theorem matchRun_drop_take {a b : List String} {i j k : Nat}
    (h : matchRun a b i j k) (hk : i + k ≤ a.length) :
    (a.drop i).take k = (b.drop j).take k := by
  rcases matchRun_bound_b h with hz | hb
  · subst hz
    simp
  · apply List.ext_get?
    intro n
    by_cases hn : n < k
    · rw [List.get?_take hn, List.get?_take hn, List.get?_drop, List.get?_drop]
      obtain ⟨x, hxa, hxb⟩ := h n hn
      rw [hxa, hxb]
    · rw [List.get?_eq_none.mpr, List.get?_eq_none.mpr]
      · simp only [List.length_take, List.length_drop]
        omega
      · simp only [List.length_take, List.length_drop]
        omega

theorem matchRun_drop_eq {a b : List String} {i j : Nat}
    (h1 : i ≤ a.length) (h2 : j ≤ b.length)
    (h3 : a.length - i = b.length - j)
    (h4 : matchRun a b i j (a.length - i)) :
    a.drop i = b.drop j := by
  have ht := matchRun_drop_take h4 (by omega)
  rw [show (a.drop i).take (a.length - i) = a.drop i by
    rw [← List.length_drop i a]
    exact List.take_length _] at ht
  rw [show (b.drop j).take (a.length - i) = b.drop j by
    rw [h3, ← List.length_drop j b]
    exact List.take_length _] at ht
  exact ht

theorem drop_take_append (b : List String) (j m e : Nat) (h1 : j ≤ m)
    (h2 : m ≤ e) :
    (b.drop j).take (m - j) ++ (b.drop m).take (e - m) =
      (b.drop j).take (e - j) := by
  rw [show e - j = (m - j) + (e - m) from by omega, List.take_add]
  congr 1
  rw [List.drop_drop]
  congr 2
  omega

theorem drop_take_drop (b : List String) (j e : Nat) (h1 : j ≤ e) :
    (b.drop j).take (e - j) ++ b.drop e = b.drop j := by
  have := List.take_append_drop (e - j) (b.drop j)
  rw [List.drop_drop, show j + (e - j) = e from by omega] at this
  exact this

theorem applyBodyAux_done (olines : List String) (rest : List String)
    (pos : Nat) (acc : List String) :
    applyBodyAux olines 0 0 rest pos acc = some (rest, pos, acc) := by
  cases rest with
  | nil => rfl
  | cons l r =>
    rw [applyBodyAux, if_pos ⟨rfl, rfl⟩]

theorem applyBodyAux_ctx (a b : List String) :
    ∀ (k i j src tgt : Nat) (rest acc : List String),
      k ≤ src → k ≤ tgt → matchRun a b i j k →
      applyBodyAux a src tgt
        ((((a.drop i).take k).map (fun l => " " ++ l)) ++ rest) i acc =
      applyBodyAux a (src - k) (tgt - k) rest (i + k)
        (acc ++ (a.drop i).take k) := by
  intro k
  induction k with
  | zero =>
    intro i j src tgt rest acc _ _ _
    simp
  | succ k ih =>
    intro i j src tgt rest acc hsrc htgt hrun
    obtain ⟨x, hxa, hxb⟩ := hrun 0 (by omega)
    rw [Nat.add_zero] at hxa hxb
    rw [drop_cons_of_get? hxa]
    simp only [List.take_succ_cons, List.map_cons, List.cons_append]
    rw [applyBodyAux, if_neg (by omega)]
    have hdata : (" " ++ x).data = ' ' :: x.data := by
      simp [String.data_append]
    rw [hdata]
    simp only []
    rw [if_pos ⟨by omega, by omega, hxa⟩]
    have hsh : matchRun a b (i + 1) (j + 1) k := by
      have := matchRun_shift (d := 1) hrun
      simpa using this
    rw [ih (i + 1) (j + 1) (src - 1) (tgt - 1) rest
      (acc ++ [String.mk x.data]) (by omega) (by omega) hsh]
    rw [show src - 1 - k = src - (k + 1) from by omega,
      show tgt - 1 - k = tgt - (k + 1) from by omega,
      show i + 1 + k = i + (k + 1) from by omega]
    rw [List.append_assoc, List.singleton_append]

theorem applyBodyAux_del (a : List String) :
    ∀ (k i src tgt : Nat) (rest acc : List String),
      k ≤ src → i + k ≤ a.length →
      applyBodyAux a src tgt
        ((((a.drop i).take k).map (fun l => "-" ++ l)) ++ rest) i acc =
      applyBodyAux a (src - k) tgt rest (i + k) acc := by
  intro k
  induction k with
  | zero =>
    intro i src tgt rest acc _ _
    simp
  | succ k ih =>
    intro i src tgt rest acc hsrc hlen
    have hxa : a.get? i = some (a.get ⟨i, by omega⟩) := List.get?_eq_get (by omega)
    rw [drop_cons_of_get? hxa]
    simp only [List.take_succ_cons, List.map_cons, List.cons_append]
    rw [applyBodyAux, if_neg (by omega)]
    have hdata : ("-" ++ a.get ⟨i, by omega⟩).data =
        '-' :: (a.get ⟨i, by omega⟩).data := by
      simp [String.data_append]
    rw [hdata]
    simp only []
    rw [if_pos ⟨by omega, hxa⟩]
    rw [ih (i + 1) (src - 1) tgt rest acc (by omega) (by omega)]
    rw [show src - 1 - k = src - (k + 1) from by omega,
      show i + 1 + k = i + (k + 1) from by omega]

theorem applyBodyAux_ins (a b : List String) :
    ∀ (k j src tgt pos : Nat) (rest acc : List String),
      k ≤ tgt → j + k ≤ b.length →
      applyBodyAux a src tgt
        ((((b.drop j).take k).map (fun l => "+" ++ l)) ++ rest) pos acc =
      applyBodyAux a src (tgt - k) rest pos (acc ++ (b.drop j).take k) := by
  intro k
  induction k with
  | zero =>
    intro j src tgt pos rest acc _ _
    simp
  | succ k ih =>
    intro j src tgt pos rest acc htgt hlen
    have hxb : b.get? j = some (b.get ⟨j, by omega⟩) := List.get?_eq_get (by omega)
    rw [drop_cons_of_get? hxb]
    simp only [List.take_succ_cons, List.map_cons, List.cons_append]
    rw [applyBodyAux, if_neg (by omega)]
    have hdata : ("+" ++ b.get ⟨j, by omega⟩).data =
        '+' :: (b.get ⟨j, by omega⟩).data := by
      simp [String.data_append]
    rw [hdata]
    simp only []
    rw [if_pos (by omega)]
    rw [ih (j + 1) src (tgt - 1) pos rest (acc ++ [String.mk (b.get ⟨j, by omega⟩).data])
      (by omega) (by omega)]
    rw [show tgt - 1 - k = tgt - (k + 1) from by omega]
    rw [List.append_assoc, List.singleton_append]

theorem applyBody_ops (a b : List String) :
    ∀ (ops : List Opcode) (i j e1 e2 : Nat) (rest acc : List String),
      opsChain a b i j ops e1 e2 →
      applyBodyAux a (e1 - i) (e2 - j) ((ops.map (opLines a b)).flatten ++ rest)
        i acc =
      some (rest, e1, acc ++ (b.drop j).take (e2 - j)) := by
  intro ops
  induction ops with
  | nil =>
    intro i j e1 e2 rest acc h
    obtain ⟨h1, h2⟩ := h
    rw [← h1, ← h2]
    simp only [Nat.sub_self]
    rw [List.map_nil, List.flatten_nil, List.nil_append, applyBodyAux_done]
    simp
  | cons op ops ih =>
    intro i j e1 e2 rest acc h
    obtain ⟨tag, x1, x2, y1, y2⟩ := op
    obtain ⟨hx1, hy1, hok, hrest⟩ := h
    have hx1' : x1 = i := hx1
    have hy1' : y1 = j := hy1
    subst hx1'
    subst hy1'
    obtain ⟨ho1, ho2, ho3, ho4, hod, hoi, hoeq⟩ := hok
    simp only [] at ho1 ho2 ho3 ho4 hod hoi hoeq
    simp only [] at hrest
    obtain ⟨hle1, hle2⟩ := opsChain_le ops hrest
    rw [List.map_cons, List.flatten_cons, List.append_assoc]
    cases tag with
    | eq =>
      obtain ⟨hsz, hrun⟩ := hoeq rfl
      simp only [opLines]
      rw [applyBodyAux_ctx a b (x2 - x1) x1 y1 (e1 - x1) (e2 - y1) _ _
        (by omega) (by omega) hrun]
      rw [show e1 - x1 - (x2 - x1) = e1 - x2 from by omega,
        show e2 - y1 - (x2 - x1) = e2 - y2 from by omega,
        show x1 + (x2 - x1) = x2 from by omega]
      have htk : (a.drop x1).take (x2 - x1) = (b.drop y1).take (y2 - y1) := by
        have := matchRun_drop_take hrun (by omega)
        rw [← hsz]
        exact this
      rw [htk]
      rw [ih x2 y2 e1 e2 rest (acc ++ (b.drop y1).take (y2 - y1)) hrest]
      rw [List.append_assoc, drop_take_append b y1 y2 e2 ho2 hle2]
    | del =>
      have hy : y1 = y2 := hod rfl
      simp only [opLines]
      rw [hy]
      rw [applyBodyAux_del a (x2 - x1) x1 (e1 - x1) (e2 - y2) _ _
        (by omega) (by omega)]
      rw [show e1 - x1 - (x2 - x1) = e1 - x2 from by omega,
        show x1 + (x2 - x1) = x2 from by omega]
      exact ih x2 y2 e1 e2 rest acc hrest
    | ins =>
      have hx : x1 = x2 := hoi rfl
      simp only [opLines]
      rw [applyBodyAux_ins a b (y2 - y1) y1 (e1 - x1) (e2 - y1) x1 _ _
        (by omega) (by omega)]
      rw [show e2 - y1 - (y2 - y1) = e2 - y2 from by omega, hx]
      rw [ih x2 y2 e1 e2 rest (acc ++ (b.drop y1).take (y2 - y1)) hrest]
      rw [List.append_assoc, drop_take_append b y1 y2 e2 ho2 hle2]
    | rep =>
      simp only [opLines]
      rw [List.append_assoc]
      rw [applyBodyAux_del a (x2 - x1) x1 (e1 - x1) (e2 - y1) _ _
        (by omega) (by omega)]
      rw [show e1 - x1 - (x2 - x1) = e1 - x2 from by omega,
        show x1 + (x2 - x1) = x2 from by omega]
      rw [applyBodyAux_ins a b (y2 - y1) y1 (e1 - x2) (e2 - y1) x2 _ _
        (by omega) (by omega)]
      rw [show e2 - y1 - (y2 - y1) = e2 - y2 from by omega]
      rw [ih x2 y2 e1 e2 rest (acc ++ (b.drop y1).take (y2 - y1)) hrest]
      rw [List.append_assoc, drop_take_append b y1 y2 e2 ho2 hle2]

theorem opsChain_head {a b : List String} {ops : List Opcode} {i j e1 e2 : Nat}
    (d : Opcode) (hne : ops ≠ []) (h : opsChain a b i j ops e1 e2) :
    (ops.headD d).a1 = i ∧ (ops.headD d).b1 = j := by
  cases ops with
  | nil => exact absurd rfl hne
  | cons op rest =>
    obtain ⟨h1, h2, _, _⟩ := h
    exact ⟨h1, h2⟩

theorem opsChain_bounds {a b : List String} :
    ∀ (ops : List Opcode) {i j e1 e2 : Nat}, ops ≠ [] →
      opsChain a b i j ops e1 e2 → e1 ≤ a.length ∧ e2 ≤ b.length := by
  intro ops
  induction ops with
  | nil => intro i j e1 e2 hne _; exact absurd rfl hne
  | cons op rest ih =>
    intro i j e1 e2 _ h
    obtain ⟨h1, h2, hok, hrest⟩ := h
    cases rest with
    | nil =>
      obtain ⟨he1, he2⟩ := hrest
      obtain ⟨_, _, ho3, ho4, _, _, _⟩ := hok
      exact ⟨by omega, by omega⟩
    | cons op2 rest2 => exact ih (by simp) hrest

theorem length_le_flatten_length :
    ∀ (rs : List (List String)), (∀ r ∈ rs, r ≠ []) →
      rs.length ≤ rs.flatten.length := by
  intro rs
  induction rs with
  | nil => intro _; simp
  | cons r rs ih =>
    intro h
    rw [List.flatten_cons, List.length_cons, List.length_append]
    have h1 : r ≠ [] := h r (List.mem_cons_self r rs)
    have h2 := ih (fun x hx => h x (List.mem_cons_of_mem r hx))
    have h3 : 0 < r.length := List.length_pos.mpr h1
    omega

theorem applyHunks_groups (a b : List String) :
    ∀ (gs : List (List Opcode)) (fuel i j : Nat) (acc : List String),
      groupsChain a b i j gs → gs.length < fuel →
      applyHunksAux a fuel
        ((gs.map (fun g =>
          hunkHeader g :: (g.map (opLines a b)).flatten)).flatten) i acc =
      some (acc ++ b.drop j) := by
  intro gs
  induction gs with
  | nil =>
    intro fuel i j acc h hf
    obtain ⟨c1, c2, c3, c4⟩ := h
    cases fuel with
    | zero => simp at hf
    | succ f =>
      rw [List.map_nil, List.flatten_nil, applyHunksAux]
      rw [matchRun_drop_eq c1 c2 c3 c4]
  | cons g gs ih =>
    intro fuel i j acc h hf
    obtain ⟨s1, t1, e1, e2, hne, hchain, hi, hj, hdiff, hrun, hrest⟩ := h
    cases fuel with
    | zero => simp at hf
    | succ f =>
      rw [List.map_cons, List.flatten_cons, List.cons_append]
      rw [applyHunksAux]
      obtain ⟨hha, hhb⟩ := opsChain_head ⟨OpTag.eq, 0, 0, 0, 0⟩ hne hchain
      obtain ⟨hla, hlb⟩ := opsChain_getLast g ⟨OpTag.eq, 0, 0, 0, 0⟩ hne hchain
      obtain ⟨hs1, ht1⟩ := opsChain_le g hchain
      obtain ⟨hbe1, hbe2⟩ := opsChain_bounds g hne hchain
      have hparse : parseHunkHeader (hunkHeader g) =
          some (s1, e1 - s1, t1, e2 - t1) := by
        simp only [hunkHeader]
        rw [hha, hhb, hla, hlb]
        exact parseHunkHeader_mk s1 e1 t1 e2 hs1 ht1
      rw [hparse]
      simp only []
      rw [if_pos hi]
      rw [applyBody_ops a b g s1 t1 e1 e2 _ _ hchain]
      simp only []
      have htk : (a.drop i).take (s1 - i) = (b.drop j).take (t1 - j) := by
        have h2 := matchRun_drop_take hrun (by omega)
        rw [← hdiff]
        exact h2
      rw [htk]
      rw [List.append_assoc, drop_take_append b j t1 e2 hj ht1]
      rw [ih f e1 e2 _ hrest (by rw [List.length_cons] at hf; omega)]
      rw [List.append_assoc, drop_take_drop b j e2 (by omega)]

theorem wellLine_append (p : List Char) (hp : ∀ c ∈ p, isLineBreak c = false)
    (q : List Char) (hq : wellLine q) : wellLine (p ++ q) := by
  obtain ⟨content, hq1, hq2⟩ := hq
  refine ⟨p ++ content, by rw [hq1, List.append_assoc], ?_⟩
  intro c hc
  rw [List.mem_append] at hc
  cases hc with
  | inl h => exact hp c h
  | inr h => exact hq2 c h

theorem wellLine_nl : wellLine ['\n'] := ⟨[], rfl, by simp⟩

theorem fmtRangeUnified_noBreak (s e : Nat) :
    ∀ c ∈ (fmtRangeUnified s e).data, isLineBreak c = false := by
  rw [fmtRangeUnified]
  intro c hc
  by_cases h1 : e - s = 1
  · rw [if_pos h1] at hc
    exact ((natToStr_digits _).2 c hc).2
  · rw [if_neg h1] at hc
    rw [String.data_append, String.data_append] at hc
    rw [List.mem_append, List.mem_append] at hc
    rcases hc with (hc | hc) | hc
    · exact ((natToStr_digits _).2 c hc).2
    · rw [show (",".data : List Char) = [','] from rfl,
        List.mem_singleton] at hc
      subst hc
      decide
    · exact ((natToStr_digits _).2 c hc).2

theorem hunkHeader_well (g : List Opcode) : wellLine (hunkHeader g).data := by
  rw [hunkHeader]
  simp only [String.data_append]
  rw [List.append_assoc, List.append_assoc, List.append_assoc]
  refine wellLine_append _ (by decide) _ ?_
  refine wellLine_append _ (fmtRangeUnified_noBreak _ _) _ ?_
  refine wellLine_append _ (by decide) _ ?_
  refine wellLine_append _ (fmtRangeUnified_noBreak _ _) _ ?_
  exact ⟨[' ', '@', '@'], rfl, by decide⟩

theorem unifiedDiffLines_well (a b : List String) (fromfile tofile : String)
    (hwa : ∀ l ∈ a, wellLine l.data) (hwb : ∀ l ∈ b, wellLine l.data)
    (hf : ∀ c ∈ fromfile.data, isLineBreak c = false)
    (ht : ∀ c ∈ tofile.data, isLineBreak c = false) :
    ∀ s ∈ unifiedDiffLines a b fromfile tofile, wellLine s.data := by
  intro s hs
  simp only [unifiedDiffLines] at hs
  by_cases hemp : (groupedOpcodes a b).isEmpty = true
  · rw [if_pos hemp] at hs
    simp at hs
  · rw [if_neg hemp] at hs
    rw [List.mem_cons, List.mem_cons] at hs
    rcases hs with hs | hs | hs
    · subst hs
      rw [String.data_append, String.data_append, List.append_assoc]
      exact wellLine_append _ (by decide) _ (wellLine_append _ hf _ wellLine_nl)
    · subst hs
      rw [String.data_append, String.data_append, List.append_assoc]
      exact wellLine_append _ (by decide) _ (wellLine_append _ ht _ wellLine_nl)
    · rw [List.mem_flatten] at hs
      obtain ⟨r, hr, hsr⟩ := hs
      rw [List.mem_map] at hr
      obtain ⟨g, hg, hgr⟩ := hr
      subst hgr
      rw [List.mem_cons] at hsr
      rcases hsr with hsr | hsr
      · subst hsr
        exact hunkHeader_well g
      · rw [List.mem_flatten] at hsr
        obtain ⟨ls, hls, hsl⟩ := hsr
        rw [List.mem_map] at hls
        obtain ⟨op, hop, hopr⟩ := hls
        subst hopr
        rcases op with ⟨tag, x1, x2, y1, y2⟩
        cases tag with
        | eq =>
          simp only [opLines] at hsl
          rw [List.mem_map] at hsl
          obtain ⟨l, hl, hml⟩ := hsl
          subst hml
          rw [String.data_append]
          exact wellLine_append _ (by decide) _
            (hwa l (List.mem_of_mem_drop (List.mem_of_mem_take hl)))
        | del =>
          simp only [opLines] at hsl
          rw [List.mem_map] at hsl
          obtain ⟨l, hl, hml⟩ := hsl
          subst hml
          rw [String.data_append]
          exact wellLine_append _ (by decide) _
            (hwa l (List.mem_of_mem_drop (List.mem_of_mem_take hl)))
        | ins =>
          simp only [opLines] at hsl
          rw [List.mem_map] at hsl
          obtain ⟨l, hl, hml⟩ := hsl
          subst hml
          rw [String.data_append]
          exact wellLine_append _ (by decide) _
            (hwb l (List.mem_of_mem_drop (List.mem_of_mem_take hl)))
        | rep =>
          simp only [opLines] at hsl
          rw [List.mem_append] at hsl
          rcases hsl with hsl | hsl
          · rw [List.mem_map] at hsl
            obtain ⟨l, hl, hml⟩ := hsl
            subst hml
            rw [String.data_append]
            exact wellLine_append _ (by decide) _
              (hwa l (List.mem_of_mem_drop (List.mem_of_mem_take hl)))
          · rw [List.mem_map] at hsl
            obtain ⟨l, hl, hml⟩ := hsl
            subst hml
            rw [String.data_append]
            exact wellLine_append _ (by decide) _
              (hwb l (List.mem_of_mem_drop (List.mem_of_mem_take hl)))

theorem newlineTerminated_split (s : String) (h : newlineTerminated s) :
    (∀ l ∈ pySplitlinesKeepends s, wellLine l.data) ∧
    concatStrings (pySplitlinesKeepends s) = s := by
  obtain ⟨lines, hdata, hwf⟩ := h
  have hs : s = String.mk lines.flatten := by
    cases s
    simpa using congrArg String.mk hdata
  subst hs
  rw [splitlines_flatten lines hwf]
  constructor
  · intro l hl
    rw [List.mem_map] at hl
    obtain ⟨l0, hl0, hml⟩ := hl
    subst hml
    exact hwf l0 hl0
  · exact concatStrings_mk lines

theorem applyPatch_lines (a b : List String) (gs : List (List Opcode))
    (oldT fromfile tofile : String)
    (hgs : groupedOpcodes a b = gs) (hemp : gs.isEmpty = false)
    (hwa : ∀ l ∈ a, wellLine l.data) (hwb : ∀ l ∈ b, wellLine l.data)
    (hf : ∀ c ∈ fromfile.data, isLineBreak c = false)
    (ht : ∀ c ∈ tofile.data, isLineBreak c = false)
    (hsa : pySplitlinesKeepends oldT = a) :
    applyPatch (concatStrings (unifiedDiffLines a b fromfile tofile)) oldT =
      some (concatStrings b) := by
  have hchain : groupsChain a b 0 0 gs := hgs ▸ groupedOpcodes_chain a b
  have hL : unifiedDiffLines a b fromfile tofile =
      ("--- " ++ fromfile ++ "\n") :: ("+++ " ++ tofile ++ "\n") ::
        (gs.map (fun g => hunkHeader g :: (g.map (opLines a b)).flatten)).flatten := by
    simp only [unifiedDiffLines]
    rw [hgs]
    rw [if_neg (by simp [hemp])]
  have hwell := unifiedDiffLines_well a b fromfile tofile hwa hwb hf ht
  rw [hL] at hwell
  rw [hL]
  have hwf : ∀ l ∈ (("--- " ++ fromfile ++ "\n") :: ("+++ " ++ tofile ++ "\n") ::
      (gs.map (fun g => hunkHeader g :: (g.map (opLines a b)).flatten)).flatten).map
        String.data, wellLine l := by
    intro l hl
    rw [List.mem_map] at hl
    obtain ⟨s0, hs0, hms⟩ := hl
    subst hms
    exact hwell s0 hs0
  have hsplit := splitlines_flatten _ hwf
  rw [List.map_map, show String.mk ∘ String.data = id from rfl, List.map_id]
    at hsplit
  have hne : ∀ r ∈ gs.map (fun g => hunkHeader g :: (g.map (opLines a b)).flatten),
      r ≠ [] := by
    intro r hr
    rw [List.mem_map] at hr
    obtain ⟨g, _, hgr⟩ := hr
    rw [← hgr]
    simp
  have h3 := length_le_flatten_length _ hne
  rw [List.length_map] at h3
  have pf1 : "--- ".data.isPrefixOf ("--- " ++ fromfile ++ "\n").data = true := by
    rw [List.isPrefixOf_iff_prefix, String.data_append, String.data_append,
      List.append_assoc]
    exact List.prefix_append _ _
  have pf2 : "+++ ".data.isPrefixOf ("+++ " ++ tofile ++ "\n").data = true := by
    rw [List.isPrefixOf_iff_prefix, String.data_append, String.data_append,
      List.append_assoc]
    exact List.prefix_append _ _
  have happ := applyHunks_groups a b gs
    (((gs.map (fun g => hunkHeader g :: (g.map (opLines a b)).flatten)).flatten).length + 1)
    0 0 [] hchain (by omega)
  rw [applyPatch]
  rw [show concatStrings (("--- " ++ fromfile ++ "\n") :: ("+++ " ++ tofile ++ "\n") ::
      (gs.map (fun g => hunkHeader g :: (g.map (opLines a b)).flatten)).flatten) =
    String.mk (((("--- " ++ fromfile ++ "\n") :: ("+++ " ++ tofile ++ "\n") ::
      (gs.map (fun g => hunkHeader g :: (g.map (opLines a b)).flatten)).flatten).map
        String.data).flatten) from rfl]
  rw [hsplit]
  simp only []
  rw [if_pos ⟨pf1, pf2⟩]
  rw [hsa]
  rw [happ]
  simp only []
  rw [List.nil_append, List.drop_zero]

/-- C9 (amended): for snapshot texts in one consistent `\n` line-ending
convention — every line terminated by a newline — and header labels free
of line-break characters, the unified-diff blob produced by
`unified_diff_text` applied to the old text as a patch reconstructs the
new text exactly. -/
theorem c9_diff_roundtrip_amended (old new fromfile tofile : String)
    (ho : newlineTerminated old) (hn : newlineTerminated new)
    (hf : ∀ c ∈ fromfile.data, isLineBreak c = false)
    (ht : ∀ c ∈ tofile.data, isLineBreak c = false) :
    applyPatch (unifiedDiffText old new fromfile tofile) old = some new := by
  obtain ⟨hwa, hca⟩ := newlineTerminated_split old ho
  obtain ⟨hwb, hcb⟩ := newlineTerminated_split new hn
  rw [unifiedDiffText]
  cases hemp : (groupedOpcodes (pySplitlinesKeepends old)
      (pySplitlinesKeepends new)).isEmpty with
  | true =>
    simp only [unifiedDiffLines]
    rw [if_pos hemp]
    rw [show concatStrings [] = "" from rfl]
    rw [show applyPatch "" old = some old from rfl]
    have hchain := groupedOpcodes_chain (pySplitlinesKeepends old)
      (pySplitlinesKeepends new)
    rw [List.isEmpty_iff.mp hemp] at hchain
    obtain ⟨c1, c2, c3, c4⟩ := hchain
    have hab : pySplitlinesKeepends old = pySplitlinesKeepends new := by
      simpa using matchRun_drop_eq c1 c2 c3 c4
    rw [← hca, hab, hcb]
  | false =>
    conv_rhs => rw [← hcb]
    exact applyPatch_lines (pySplitlinesKeepends old) (pySplitlinesKeepends new)
      (groupedOpcodes (pySplitlinesKeepends old) (pySplitlinesKeepends new))
      old fromfile tofile rfl hemp hwa hwb hf ht rfl

/-- Witness: the amended C9 round-trip at a concrete pair of
newline-terminated texts. -/
theorem c9_diff_roundtrip_amended_witness :
    newlineTerminated "a\nx\n" ∧
    applyPatch (unifiedDiffText "a\nx\n" "a\ny\n" "f" "t") "a\nx\n" =
      some "a\ny\n" :=
  ⟨⟨[['a', '\n'], ['x', '\n']], rfl, by
      intro l hl
      simp only [List.mem_cons, List.not_mem_nil, or_false] at hl
      rcases hl with h | h
      · subst h; exact ⟨['a'], rfl, by decide⟩
      · subst h; exact ⟨['x'], rfl, by decide⟩⟩,
   c9_diff_roundtrip_amended "a\nx\n" "a\ny\n" "f" "t"
     ⟨[['a', '\n'], ['x', '\n']], rfl, by
        intro l hl
        simp only [List.mem_cons, List.not_mem_nil, or_false] at hl
        rcases hl with h | h
        · subst h; exact ⟨['a'], rfl, by decide⟩
        · subst h; exact ⟨['x'], rfl, by decide⟩⟩
     ⟨[['a', '\n'], ['y', '\n']], rfl, by
        intro l hl
        simp only [List.mem_cons, List.not_mem_nil, or_false] at hl
        rcases hl with h | h
        · subst h; exact ⟨['a'], rfl, by decide⟩
        · subst h; exact ⟨['y'], rfl, by decide⟩⟩
     (by decide) (by decide)⟩
